import Mathlib

/-!
Verification of the incremental symbol/scope index and the scope-aware
definition resolver of the `deancomplete` C/C++ code-intelligence core.

The TypeScript sources are embedded shallowly:

* `src/database/SymbolDatabase.ts` — the `SymbolDatabase` class becomes the
  `SymbolDatabase` structure below; its `Map` fields become association
  lists with JavaScript `Map` semantics (`mapGet`, `mapSet`, `mapDelete`:
  `set` on an existing key updates the entry in place, on a fresh key
  appends it; iteration order is list order; string keys compare by
  value, which is plain equality here).
* `src/scope/ScopeManager.ts` — the `ScopeManager` class and its scope-tree
  builder.  JavaScript `Scope` objects carry a non-owning `parent`
  pointer; here a scope is a pure tree (`Scope`), and the parent chain of
  a scope reached by descending from the roots is recovered as the list of
  ancestor names accumulated along the descent, which coincides with the
  pointer chain the builder creates (a scope's `parent` field is set to
  the node it is attached under, exactly the node above it in the tree).
* the definition provider of the extension module (the second module
  stored in `src/parser/CppParser.ts`) — `getUnqualifiedName`,
  `getCandidateScopePaths`, `scoreDefinition` and the body of
  `provideDefinition` become the resolver functions.

Machine integers do not occur (scores are small integer sums, lines are
array indices), so `Nat`/`Int` are used directly.
-/

/-! ## JavaScript `Map` model -/

/-- `m.get(k)`: value of the first (only) entry with key `k`;
`undefined` becomes `none`. -/
def mapGet [DecidableEq κ] (m : List (κ × ν)) (key : κ) : Option ν :=
  match m with
  | [] => none
  | e :: rest => if e.1 = key then some e.2 else mapGet rest key

/-- `m.set(k, v)`: replace the entry in place if the key is present,
otherwise append a new entry (JavaScript `Map` insertion order). -/
def mapSet [DecidableEq κ] (m : List (κ × ν)) (key : κ) (val : ν) : List (κ × ν) :=
  match m with
  | [] => [(key, val)]
  | e :: rest => if e.1 = key then (key, val) :: rest else e :: mapSet rest key val

/-- `m.delete(k)`: drop the entry with key `k` (keys are unique by
construction, so dropping the first occurrence models the deletion). -/
def mapDelete [DecidableEq κ] (m : List (κ × ν)) (key : κ) : List (κ × ν) :=
  match m with
  | [] => []
  | e :: rest => if e.1 = key then rest else e :: mapDelete rest key

section MapLemmas

variable {κ ν : Type} [DecidableEq κ]

theorem mapGet_mapSet (m : List (κ × ν)) (key key' : κ) (val : ν) :
    mapGet (mapSet m key val) key' = if key = key' then some val else mapGet m key' := by
  induction m with
  | nil => by_cases h : key = key' <;> simp [mapSet, mapGet, h]
  | cons e rest ih =>
    by_cases hk : e.1 = key
    · subst hk
      by_cases h : e.1 = key' <;> simp [mapSet, mapGet, h]
    · by_cases h : e.1 = key'
      · subst h
        have : ¬ key = e.1 := fun hc => hk hc.symm
        simp [mapSet, mapGet, hk, this]
      · simp [mapSet, mapGet, hk, h, ih]

theorem mem_keys_of_mem_keys_mapSet (m : List (κ × ν)) (key key' : κ) (val : ν)
    (h : key' ∈ (mapSet m key val).map Prod.fst) :
    key' ∈ m.map Prod.fst ∨ key' = key := by
  induction m with
  | nil => simp [mapSet] at h; simp [h]
  | cons e rest ih =>
    by_cases hk : e.1 = key
    · simp only [mapSet, hk, if_pos, List.map_cons, List.mem_cons] at h
      rcases h with h | h
      · exact Or.inr h
      · exact Or.inl (by simp [h])
    · simp only [mapSet, hk, if_neg, List.map_cons, List.mem_cons,
        not_false_iff] at h
      rcases h with h | h
      · exact Or.inl (by simp [h])
      · rcases ih h with h2 | h2
        · exact Or.inl (by simp [h2])
        · exact Or.inr h2

theorem mapSet_keys_nodup (m : List (κ × ν)) (key : κ) (val : ν)
    (hnd : (m.map Prod.fst).Nodup) : ((mapSet m key val).map Prod.fst).Nodup := by
  induction m with
  | nil => simp [mapSet]
  | cons e rest ih =>
    simp only [List.map_cons, List.nodup_cons] at hnd
    by_cases hk : e.1 = key
    · subst hk
      simpa [mapSet, List.nodup_cons] using hnd
    · simp only [mapSet, hk, if_neg, not_false_iff, List.map_cons, List.nodup_cons]
      refine ⟨fun hmem => ?_, ih hnd.2⟩
      rcases mem_keys_of_mem_keys_mapSet rest key e.1 val hmem with h | h
      · exact hnd.1 h
      · exact hk h

theorem mapDelete_keys_sublist (m : List (κ × ν)) (key : κ) :
    ((mapDelete m key).map Prod.fst).Sublist (m.map Prod.fst) := by
  induction m with
  | nil => simp [mapDelete]
  | cons e rest ih =>
    by_cases hk : e.1 = key
    · simp only [mapDelete, hk, if_pos, List.map_cons]
      exact (List.sublist_cons_self _ _)
    · simp only [mapDelete, hk, if_neg, not_false_iff, List.map_cons]
      exact ih.cons₂ _

theorem mapDelete_keys_nodup (m : List (κ × ν)) (key : κ)
    (hnd : (m.map Prod.fst).Nodup) : ((mapDelete m key).map Prod.fst).Nodup :=
  (mapDelete_keys_sublist m key).nodup hnd

theorem mapGet_mapDelete (m : List (κ × ν)) (key key' : κ)
    (hnd : (m.map Prod.fst).Nodup) :
    mapGet (mapDelete m key) key' = if key = key' then none else mapGet m key' := by
  induction m with
  | nil => by_cases h : key = key' <;> simp [mapDelete, mapGet, h]
  | cons e rest ih =>
    simp only [List.map_cons, List.nodup_cons] at hnd
    by_cases hk : e.1 = key
    · subst hk
      by_cases h : e.1 = key'
      · subst h
        simp only [mapDelete, if_pos rfl, if_pos rfl]
        clear ih
        induction rest with
        | nil => simp [mapGet]
        | cons f r ihr =>
          simp only [List.map_cons, List.mem_cons] at hnd
          have hne : ¬ f.1 = e.1 := fun hc => hnd.1 (Or.inl hc.symm)
          simp only [mapGet, hne, if_neg, not_false_iff]
          exact ihr ⟨fun hm => hnd.1 (Or.inr hm), hnd.2.of_cons⟩
      · simp [mapDelete, mapGet, h]
    · by_cases h : e.1 = key'
      · subst h
        have : ¬ key = e.1 := fun hc => hk hc.symm
        simp [mapDelete, mapGet, hk, this]
      · simp [mapDelete, mapGet, hk, h, ih hnd.2]

theorem mapGet_eq_none_of_not_mem_keys (m : List (κ × ν)) (key : κ)
    (h : key ∉ m.map Prod.fst) : mapGet m key = none := by
  induction m with
  | nil => simp [mapGet]
  | cons e rest ih =>
    simp only [List.map_cons, List.mem_cons] at h
    push_neg at h
    have : ¬ e.1 = key := fun hc => h.1 hc.symm
    simp [mapGet, this, ih h.2]

theorem mem_of_mapGet_eq_some (m : List (κ × ν)) (key : κ) (v : ν)
    (h : mapGet m key = some v) : (key, v) ∈ m := by
  induction m with
  | nil => simp [mapGet] at h
  | cons e rest ih =>
    by_cases hk : e.1 = key
    · simp only [mapGet, hk, if_pos] at h
      have hv : e.2 = v := by injection h
      have : e = (key, v) := Prod.ext hk hv
      rw [← this]
      exact List.mem_cons_self e rest
    · simp only [mapGet, hk, if_neg, not_false_iff] at h
      exact List.mem_cons_of_mem _ (ih h)

end MapLemmas

namespace DC

/-! ## Symbol record model (`Symbol`, `Reference` of `CppParser.ts`) -/

/-- A reference occurrence (`Reference` interface).  The `kind` field is one
of the strings `definition` / `declaration` / `usage`; it is carried as a
plain string. -/
structure Reference where
  file : String
  line : Nat
  column : Nat
  kind : String
deriving DecidableEq, Repr

/-- One parsed symbol occurrence (`Symbol` interface of `CppParser.ts`).
`type` and `signature` are optional in TypeScript and become `Option`s. -/
structure Symbol where
  name : String
  kind : String
  file : String
  line : Nat
  column : Nat
  scope : String
  type : Option String := none
  signature : Option String := none
  isDefinition : Bool
  isDeclaration : Bool
  references : List Reference := []
deriving DecidableEq, Repr

/-! ## `SymbolDatabase` (`src/database/SymbolDatabase.ts`) -/

/-- The three `Map` fields of the `SymbolDatabase` class:
`symbols` (file → symbols), `symbolIndex` (name → symbols),
`referenceIndex` (symbol key → references). -/
structure SymbolDatabase where
  symbols : List (String × List Symbol) := []
  symbolIndex : List (String × List Symbol) := []
  referenceIndex : List (String × List Reference) := []
deriving DecidableEq, Repr

/-- The freshly constructed database (`new SymbolDatabase()`). -/
def SymbolDatabase.empty : SymbolDatabase := {}

/-- One step of the removal loop of `removeFile`: look up the bucket of
`symbol.name`; if present, `findIndex` the first record matching
`s.file === symbol.file && s.line === symbol.line`, `splice` it out, and
delete the bucket if it became empty. -/
def removeIndexEntry (idx : List (String × List Symbol)) (symbol : Symbol) :
    List (String × List Symbol) :=
  match mapGet idx symbol.name with
  | none => idx
  | some symbolsWithName =>
    match symbolsWithName.findIdx?
        (fun s => s.file == symbol.file && s.line == symbol.line) with
    | none => idx
    | some i =>
      let spliced := symbolsWithName.eraseIdx i
      if spliced.isEmpty then mapDelete idx symbol.name
      else mapSet idx symbol.name spliced

/-- `removeFile(filePath)`: if the file is stored, remove each of its old
symbols from the name index and then delete the file entry. -/
def SymbolDatabase.removeFile (db : SymbolDatabase) (filePath : String) : SymbolDatabase :=
  match mapGet db.symbols filePath with
  | none => db
  | some oldSymbols =>
    let idx := oldSymbols.foldl removeIndexEntry db.symbolIndex
    { db with symbolIndex := idx, symbols := mapDelete db.symbols filePath }

/-- One step of the insertion loop of `updateFile`: create the name bucket
if absent, then `push` the symbol at its end. -/
def insertIndexEntry (idx : List (String × List Symbol)) (symbol : Symbol) :
    List (String × List Symbol) :=
  mapSet idx symbol.name ((mapGet idx symbol.name).getD [] ++ [symbol])

/-- `updateFile(filePath, symbols)`: remove the old symbols of the file,
store the new list, and index every new symbol under its name. -/
def SymbolDatabase.updateFile (db : SymbolDatabase) (filePath : String)
    (symbols : List Symbol) : SymbolDatabase :=
  let db := db.removeFile filePath
  let db := { db with symbols := mapSet db.symbols filePath symbols }
  { db with symbolIndex := symbols.foldl insertIndexEntry db.symbolIndex }

/-- `findSymbolsByName(name)`: the name bucket, or `[]` when absent. -/
def SymbolDatabase.findSymbolsByName (db : SymbolDatabase) (name : String) : List Symbol :=
  (mapGet db.symbolIndex name).getD []

/-- `findDefinitions(name)`: the bucket filtered by `isDefinition`. -/
def SymbolDatabase.findDefinitions (db : SymbolDatabase) (name : String) : List Symbol :=
  (db.findSymbolsByName name).filter (fun s => s.isDefinition)

/-- `findDeclarations(name)`: the bucket filtered by `isDeclaration`. -/
def SymbolDatabase.findDeclarations (db : SymbolDatabase) (name : String) : List Symbol :=
  (db.findSymbolsByName name).filter (fun s => s.isDeclaration)

/-- All symbols currently stored, in file-table iteration order
(`getAllSymbols`). -/
def SymbolDatabase.allStoredSymbols (db : SymbolDatabase) : List Symbol :=
  (db.symbols.map Prod.snd).flatten

/-! ## `ScopeManager` (`src/scope/ScopeManager.ts`) -/

/-- A lexical scope (`Scope` interface).  The `parent` back-pointer of the
TypeScript object is not stored: a scope is identified together with the
list of its ancestors when it is reached by descent from the roots, which
is exactly the chain its `parent` pointers spell out (the builder sets
`parent` to the node the scope is attached under). -/
inductive Scope : Type where
  | mk (name : String) (type : String) (startLine : Nat) (endLine : Nat)
       (symbols : List Symbol) (children : List Scope)

def Scope.name : Scope → String
  | .mk n _ _ _ _ _ => n

def Scope.type : Scope → String
  | .mk _ t _ _ _ _ => t

def Scope.startLine : Scope → Nat
  | .mk _ _ s _ _ _ => s

def Scope.endLine : Scope → Nat
  | .mk _ _ _ e _ _ => e

def Scope.symbols : Scope → List Symbol
  | .mk _ _ _ _ syms _ => syms

def Scope.children : Scope → List Scope
  | .mk _ _ _ _ _ cs => cs

/-- `isScopeSymbol`: the scope-bearing kinds. -/
def isScopeSymbol (symbol : Symbol) : Bool :=
  ["namespace", "class", "struct", "function"].contains symbol.kind

/-- A scope still open on the builder stack.  In the TypeScript code the
stack holds `Scope` objects that are mutated while open (symbols pushed,
completed children attached); here the open node is a `Frame` and is
turned into a `Scope` when it is popped (all its mutations are over by
then, since the stack discipline only ever mutates the top). -/
structure Frame where
  name : String
  type : String
  startLine : Nat
  endLine : Nat
  symbols : List Symbol
  children : List Scope

/-- `createScope(symbol)`: a fresh scope with `endLine` provisionally set
to the start line (the `// Will be updated later` comment in the source). -/
def createScope (symbol : Symbol) : Frame :=
  { name := symbol.name, type := symbol.kind, startLine := symbol.line,
    endLine := symbol.line, symbols := [], children := [] }

/-- Close the top frame into a `Scope` value. -/
def closeFrame (fr : Frame) : Scope :=
  .mk fr.name fr.type fr.startLine fr.endLine fr.symbols fr.children

/-- The `while`-loop of `buildScopeTree` that pops scopes whose
(provisional) `endLine` lies before the new symbol.  A popped frame is
complete and is attached to the frame below it — in the source the
attachment happened already at creation time; folding it in at pop time
builds the same tree because nothing below the top of the stack is
mutated while the top is open. -/
def popFrames (line : Nat) (roots : List Scope) : List Frame → List Scope × List Frame
  | [] => (roots, [])
  | top :: rest =>
    if top.endLine < line then
      match rest with
      | [] => popFrames line (roots ++ [closeFrame top]) []
      | f :: rest2 =>
        popFrames line roots ({ f with children := f.children ++ [closeFrame top] } :: rest2)
    else (roots, top :: rest)
termination_by l => l.length

/-- After the symbol loop the frames still on the stack are closed from
the top down (in the source they are already part of the tree). -/
def closeAllFrames (roots : List Scope) : List Frame → List Scope
  | [] => roots
  | top :: rest =>
    match rest with
    | [] => roots ++ [closeFrame top]
    | f :: rest2 =>
      closeAllFrames roots ({ f with children := f.children ++ [closeFrame top] } :: rest2)
termination_by l => l.length

/-- The body of the `for (const symbol of sortedSymbols)` loop: a
scope-bearing symbol pops dead scopes and opens a new one; every symbol is
then appended to the `symbols` of the current stack top (for a
scope-bearing symbol that is the scope it just opened). -/
def buildScopeStep (st : List Scope × List Frame) (symbol : Symbol) :
    List Scope × List Frame :=
  let st :=
    if isScopeSymbol symbol then
      let p := popFrames symbol.line st.1 st.2
      (p.1, createScope symbol :: p.2)
    else st
  match st.2 with
  | [] => st
  | top :: rest => (st.1, { top with symbols := top.symbols ++ [symbol] } :: rest)

/-- Stable insertion of a symbol into a line-sorted list (a symbol goes
before the first strictly later line; equal lines keep original order). -/
def insertByLine (x : Symbol) : List Symbol → List Symbol
  | [] => [x]
  | y :: ys => if x.line ≤ y.line then x :: y :: ys else y :: insertByLine x ys

/-- `[...symbols].sort((a, b) => a.line - b.line)`: JavaScript
`Array.prototype.sort` is stable, so the result is the unique stable
line-ascending ordering, given here by insertion sort. -/
def sortSymbolsByLine : List Symbol → List Symbol
  | [] => []
  | x :: xs => insertByLine x (sortSymbolsByLine xs)

mutual

/-- `updateScopeEndLines` on one scope: among the directly-owned symbols
keep those at or after `startLine` whose kind differs from the scope's own
type, and move `endLine` to the last of them (else leave it). -/
def updateScopeEndLinesOne : Scope → Scope
  | .mk n t s e syms children =>
    let scopeSymbols := syms.filter (fun x => decide (s ≤ x.line) && x.kind != t)
    let e2 := match scopeSymbols.getLast? with
      | some last => last.line
      | none => e
    .mk n t s e2 syms (updateScopeEndLinesList children)

/-- `updateScopeEndLines` over a scope list (recursing into children). -/
def updateScopeEndLinesList : List Scope → List Scope
  | [] => []
  | sc :: rest => updateScopeEndLinesOne sc :: updateScopeEndLinesList rest

end

mutual

/-- `updateGlobalScopes` on one scope: `globalScopes.set(scope.name, scope)`
then recurse into the children (last write wins). -/
def updateGlobalScopesOne (m : List (String × Scope)) : Scope → List (String × Scope)
  | sc@(.mk n _ _ _ _ children) => updateGlobalScopesList (mapSet m n sc) children

/-- `updateGlobalScopes` over a scope list. -/
def updateGlobalScopesList (m : List (String × Scope)) : List Scope → List (String × Scope)
  | [] => m
  | sc :: rest => updateGlobalScopesList (updateGlobalScopesOne m sc) rest

end

mutual

/-- `removeScopeFromGlobalIndex`: delete the scope's name, recurse into
children. -/
def removeScopeFromGlobalIndex (m : List (String × Scope)) : Scope → List (String × Scope)
  | .mk n _ _ _ _ children => removeScopeListFromGlobalIndex (mapDelete m n) children

/-- `removeScopeFromGlobalIndex` over a scope list. -/
def removeScopeListFromGlobalIndex (m : List (String × Scope)) :
    List Scope → List (String × Scope)
  | [] => m
  | c :: rest => removeScopeListFromGlobalIndex (removeScopeFromGlobalIndex m c) rest

end

/-- `findScopeAtLine`: first root whose `[startLine, endLine]` contains the
line, preferring a matching child. -/
def findScopeAtLine : List Scope → Nat → Option Scope
  | [], _ => none
  | .mk n t s e syms children :: rest, line =>
    if s ≤ line ∧ line ≤ e then
      match findScopeAtLine children line with
      | some childScope => some childScope
      | none => some (.mk n t s e syms children)
    else findScopeAtLine rest line

/-- `findScopeAtLine` together with the ancestor names of the returned
scope (root first) — the information the `parent` pointers carry in the
TypeScript objects. -/
def findScopeAtLineH : List String → List Scope → Nat → Option (List String × Scope)
  | _, [], _ => none
  | anc, .mk n t s e syms children :: rest, line =>
    if s ≤ line ∧ line ≤ e then
      match findScopeAtLineH (anc ++ [n]) children line with
      | some r => some r
      | none => some (anc, .mk n t s e syms children)
    else findScopeAtLineH anc rest line

/-- The two `Map` fields of the `ScopeManager` class. -/
structure ScopeManager where
  fileScopes : List (String × List Scope) := []
  globalScopes : List (String × Scope) := []

/-- The freshly constructed manager (`new ScopeManager()`). -/
def ScopeManager.empty : ScopeManager := {}

/-- `buildScopeTree(symbols, filePath)`: sort a copy of the symbol list by
line, run the open-scope stack over it, backfill end lines, store the
forest for the file and index it globally; the built forest is also
returned. -/
def ScopeManager.buildScopeTree (sm : ScopeManager) (symbols : List Symbol)
    (filePath : String) : ScopeManager × List Scope :=
  let sortedSymbols := sortSymbolsByLine symbols
  let p := sortedSymbols.foldl buildScopeStep ([], [])
  let scopes := updateScopeEndLinesList (closeAllFrames p.1 p.2)
  let sm := { sm with fileScopes := mapSet sm.fileScopes filePath scopes }
  let sm := { sm with globalScopes := updateGlobalScopesList sm.globalScopes scopes }
  (sm, scopes)

/-- `ScopeManager.updateFile(filePath, scopes)`. -/
def ScopeManager.updateFile (sm : ScopeManager) (filePath : String)
    (scopes : List Scope) : ScopeManager :=
  let sm := { sm with fileScopes := mapSet sm.fileScopes filePath scopes }
  { sm with globalScopes := updateGlobalScopesList sm.globalScopes scopes }

/-- `ScopeManager.removeFile(filePath)`: unindex the file's scopes from the
global registry, then drop the file entry. -/
def ScopeManager.removeFile (sm : ScopeManager) (filePath : String) : ScopeManager :=
  match mapGet sm.fileScopes filePath with
  | none => sm
  | some scopes =>
    let sm := { sm with globalScopes := removeScopeListFromGlobalIndex sm.globalScopes scopes }
    { sm with fileScopes := mapDelete sm.fileScopes filePath }

/-- `findScopeByName(name)`. -/
def ScopeManager.findScopeByName (sm : ScopeManager) (name : String) : Option Scope :=
  mapGet sm.globalScopes name

/-- `findScopeAtPosition(filePath, line)`. -/
def ScopeManager.findScopeAtPosition (sm : ScopeManager) (filePath : String)
    (line : Nat) : Option Scope :=
  match mapGet sm.fileScopes filePath with
  | none => none
  | some scopes => findScopeAtLine scopes line

/-- `findScopeAtPosition` keeping the ancestor names of the result. -/
def ScopeManager.findScopeAtPositionH (sm : ScopeManager) (filePath : String)
    (line : Nat) : Option (List String × Scope) :=
  match mapGet sm.fileScopes filePath with
  | none => none
  | some scopes => findScopeAtLineH [] scopes line

/-- `getScopeHierarchy(scope)` reduced to names: the ancestor chain (root
first, from the `parent` pointers) followed by the scope itself. -/
def getScopeHierarchyNames (ancestors : List String) (sc : Scope) : List String :=
  ancestors ++ [sc.name]

/-- `getScopePath(scope)`: the hierarchy names joined with `::`. -/
def getScopePath (ancestors : List String) (sc : Scope) : String :=
  String.intercalate "::" (getScopeHierarchyNames ancestors sc)

mutual

/-- Whether a scope tree contains a scope with the given name. -/
def scopeContainsName : Scope → String → Bool
  | .mk n _ _ _ _ children, target => n == target || scopeListContainsName children target

/-- Whether a scope forest contains a scope with the given name. -/
def scopeListContainsName : List Scope → String → Bool
  | [], _ => false
  | c :: rest, target => scopeContainsName c target || scopeListContainsName rest target

end

/-! ## Resolver (definition provider of the extension module) -/

/-- Start index of the last occurrence of `::`, i.e. the JavaScript
`str.lastIndexOf(\'::\')` (`none` for `-1`).  Overlapping occurrences count,
exactly as in JavaScript (`":::".lastIndexOf("::") === 1`). -/
def lastSepPos : List Char → Option Nat
  | [] => none
  | c :: rest =>
    match lastSepPos rest with
    | some j => some (j + 1)
    | none =>
      match c, rest with
      | ':', ':' :: _ => some 0
      | _, _ => none

/-- `word.includes(\'::\')`. -/
def hasScopeSep (word : String) : Bool :=
  (lastSepPos word.toList).isSome

/-- `getUnqualifiedName(name)`: the text after the last `::`, or the whole
text. -/
def getUnqualifiedName (name : String) : String :=
  match lastSepPos name.toList with
  | none => name
  | some idx => String.mk (name.toList.drop (idx + 2))

/-- `word.substring(0, Math.max(0, word.lastIndexOf(\'::\')))`: the qualifier
before the last `::` (only used under `word.includes(\'::\')`). -/
def qualifierOf (word : String) : String :=
  match lastSepPos word.toList with
  | none => ""
  | some idx => String.mk (word.toList.take idx)

/-- `[n, n-1, ..., 1]` — the loop counter of `getCandidateScopePaths`. -/
def countdown : Nat → List Nat
  | 0 => []
  | n + 1 => (n + 1) :: countdown n

/-- `getCandidateScopePaths(scope)`: `[\'\']` when no scope, otherwise every
prefix of the hierarchy names joined with `::`, most specific first,
ending with the empty (global) path. -/
def getCandidateScopePaths (hierarchyNames : Option (List String)) : List String :=
  match hierarchyNames with
  | none => [""]
  | some names =>
    (countdown names.length).map (fun i => String.intercalate "::" (names.take i)) ++ [""]

/-- The `for (const c of candidateScopes) \x7b if (c && scope.endsWith(c))
\x7b score += 12; break; \x7d \x7d` loop: 12 points for the first non-empty
candidate path that is a suffix of the scope, at most once. -/
def suffixBonus (scope : String) : List String → Int
  | [] => 0
  | c :: rest => if c != "" && scope.endsWith c then 12 else suffixBonus scope rest

/-- `scoreDefinition(def, currentFile, candidateScopes, word, targetName)`.
`def.scope || \'\'` is the identity here because `scope` is a mandatory
string field, and the `typeof def.name === \'string\'` guards are vacuous
for the same reason. -/
def scoreDefinition (d : Symbol) (currentFile : String) (candidateScopes : List String)
    (word targetName : String) : Int :=
  let score : Int := 0
  let score := if d.file == currentFile then score + 5 else score
  let score := if candidateScopes.contains d.scope then score + 20 else score
  let score := score + suffixBonus d.scope candidateScopes
  let score :=
    if hasScopeSep word then
      let qualifier := qualifierOf word
      let score := if d.name.startsWith (qualifier ++ "::") then score + 15 else score
      if d.scope.endsWith qualifier then score + 10 else score
    else score
  let score := if d.name == targetName then score + 2 else score
  let score := if d.name.endsWith ("::" ++ targetName) then score + 1 else score
  if d.isDefinition && !d.isDeclaration then score + 3 else score

/-- First-occurrence deduplication, the embedding of
`[...new Set([...allDefs, ...fqDefs])]`.  The JavaScript `Set` compares by
object identity; every record object lives in exactly one name bucket and
the two consulted buckets are distinct (the unqualified tail differs from
a qualified identifier), so identity-level and value-level first-occurrence
deduplication coincide on these inputs. -/
def dedupKeepFirstAux (seen : List Symbol) : List Symbol → List Symbol
  | [] => []
  | x :: xs =>
    if seen.contains x then dedupKeepFirstAux seen xs
    else x :: dedupKeepFirstAux (seen ++ [x]) xs

/-- See `dedupKeepFirstAux`. -/
def dedupKeepFirst (l : List Symbol) : List Symbol :=
  dedupKeepFirstAux [] l

/-- Stable descending insertion by score: a new element goes after every
element with a greater-or-equal score (ties keep original order), which is
the unique stable result of `.sort((a, b) => b.score - a.score)`. -/
def insertScored (x : Symbol × Int) : List (Symbol × Int) → List (Symbol × Int)
  | [] => [x]
  | y :: ys => if y.2 ≤ x.2 then x :: y :: ys else y :: insertScored x ys

/-- See `insertScored`. -/
def sortScoredDesc : List (Symbol × Int) → List (Symbol × Int)
  | [] => []
  | x :: xs => insertScored x (sortScoredDesc xs)

/-- The candidate-scope paths the provider computes for the cursor
position: hierarchy prefixes of the scope found at the position, or
`[\'\']`. -/
def resolveCandidateScopes (sm : ScopeManager) (currentFile : String) (line : Nat) :
    List String :=
  getCandidateScopePaths
    ((sm.findScopeAtPositionH currentFile line).map (fun r => getScopeHierarchyNames r.1 r.2))

/-- The candidate set of `provideDefinition`: definitions under the
unqualified tail, plus definitions under the full word when it is
qualified, first occurrences kept. -/
def candidateDefs (db : SymbolDatabase) (word : String) : List Symbol :=
  let targetName := getUnqualifiedName word
  let allDefs := db.findDefinitions targetName
  let fqDefs := if hasScopeSep word then db.findDefinitions word else []
  dedupKeepFirst (allDefs ++ fqDefs)

/-- The score `provideDefinition` assigns to a candidate. -/
def resolverScore (sm : ScopeManager) (word currentFile : String) (line : Nat)
    (d : Symbol) : Int :=
  scoreDefinition d currentFile (resolveCandidateScopes sm currentFile line) word
    (getUnqualifiedName word)

/-- The core of `provideDefinition`: empty candidate set gives `undefined`
(`none`), otherwise the candidates are ranked by descending score
(`ranked.filter((_, i) => i < 5)` is `take 5`) — the result locations are
in bijection with the returned records, so the record list is returned. -/
def resolve (db : SymbolDatabase) (sm : ScopeManager) (word currentFile : String)
    (line : Nat) : Option (List Symbol) :=
  let defs := candidateDefs db word
  if defs.isEmpty then none
  else
    let ranked := sortScoredDesc (defs.map (fun d => (d, resolverScore sm word currentFile line d)))
    some ((ranked.take 5).map Prod.fst)

/-! ## Operation sequences and the index invariant -/

/-- The mutation entry points exposed to collaborators. -/
inductive Op : Type where
  | update (filePath : String) (symbols : List Symbol)
  | remove (filePath : String)

/-- Apply one mutation to the database. -/
def applyOp (db : SymbolDatabase) : Op → SymbolDatabase
  | .update f S => db.updateFile f S
  | .remove f => db.removeFile f

/-- The database reached from the empty one by a sequence of mutations. -/
def applyOps (ops : List Op) : SymbolDatabase :=
  ops.foldl applyOp SymbolDatabase.empty

/-- Well-formedness of one operation: an update carries records of the
file being updated (the parser stamps `file: filePath` on every record it
returns, so this holds for every call the extension makes). -/
def OpWF : Op → Prop
  | .update f S => ∀ s ∈ S, s.file = f
  | .remove _ => True

instance : DecidablePred OpWF := fun op =>
  match op with
  | .update f S => inferInstanceAs (Decidable (∀ s ∈ S, s.file = f))
  | .remove _ => inferInstanceAs (Decidable True)

/-- Well-formedness of a whole operation sequence. -/
def OpsWF (ops : List Op) : Prop := ∀ op ∈ ops, OpWF op

instance : DecidablePred OpsWF := fun ops =>
  inferInstanceAs (Decidable (∀ op ∈ ops, OpWF op))

/-- The stored symbol list of one file (`[]` when the file is unknown). -/
def storedList (db : SymbolDatabase) (f : String) : List Symbol :=
  (mapGet db.symbols f).getD []

/-- The state invariant of the `SymbolDatabase` maps: keys are unique,
every stored record carries the file it is stored under, name buckets are
never empty, and — the heart of the name-index consistency — for every
name `n` and file `f` the sub-sequence of the `n`-bucket coming from `f`
is exactly `f`'s stored list filtered to name `n`, in stored order. -/
structure DbInv (db : SymbolDatabase) : Prop where
  keysS : (db.symbols.map Prod.fst).Nodup
  keysI : (db.symbolIndex.map Prod.fst).Nodup
  filesWF : ∀ p ∈ db.symbols, ∀ s ∈ p.2, s.file = p.1
  bucketFile : ∀ n f, (db.findSymbolsByName n).filter (fun s => s.file == f)
      = (storedList db f).filter (fun s => s.name == n)
  bucketsNonempty : ∀ p ∈ db.symbolIndex, p.2 ≠ []

theorem DbInv.empty : DbInv SymbolDatabase.empty := by
  refine ⟨by simp [SymbolDatabase.empty], by simp [SymbolDatabase.empty], ?_, ?_, ?_⟩ <;>
    simp [SymbolDatabase.empty, SymbolDatabase.findSymbolsByName, storedList, mapGet]

theorem mem_of_mem_mapDelete {κ ν : Type} [DecidableEq κ] (m : List (κ × ν)) (key : κ)
    (p : κ × ν) (h : p ∈ mapDelete m key) : p ∈ m := by
  induction m with
  | nil => simp [mapDelete] at h
  | cons e rest ih =>
    by_cases hk : e.1 = key
    · simp only [mapDelete, hk, if_pos] at h
      exact List.mem_cons_of_mem _ h
    · simp only [mapDelete, hk, if_neg, not_false_iff] at h
      rcases List.mem_cons.mp h with h2 | h2
      · simp [h2]
      · exact List.mem_cons_of_mem _ (ih h2)

theorem mem_mapSet_cases {κ ν : Type} [DecidableEq κ] (m : List (κ × ν)) (key : κ) (val : ν)
    (p : κ × ν) (h : p ∈ mapSet m key val) : p = (key, val) ∨ p ∈ m := by
  induction m with
  | nil =>
    simp only [mapSet, List.mem_singleton] at h
    exact Or.inl h
  | cons e rest ih =>
    by_cases hk : e.1 = key
    · simp only [mapSet, hk, if_pos] at h
      rcases List.mem_cons.mp h with h2 | h2
      · exact Or.inl h2
      · exact Or.inr (List.mem_cons_of_mem _ h2)
    · simp only [mapSet, hk, if_neg, not_false_iff] at h
      rcases List.mem_cons.mp h with h2 | h2
      · exact Or.inr (by simp [h2])
      · rcases ih h2 with h3 | h3
        · exact Or.inl h3
        · exact Or.inr (List.mem_cons_of_mem _ h3)

theorem mapGet_of_mem_nodup {κ ν : Type} [DecidableEq κ] (m : List (κ × ν))
    (hnd : (m.map Prod.fst).Nodup) (p : κ × ν) (hp : p ∈ m) : mapGet m p.1 = some p.2 := by
  induction m with
  | nil => simp at hp
  | cons e rest ih =>
    simp only [List.map_cons, List.nodup_cons] at hnd
    rcases List.mem_cons.mp hp with hp2 | hp2
    · subst hp2
      simp [mapGet]
    · have hne : ¬ e.1 = p.1 := by
        intro hc
        exact hnd.1 (hc ▸ (List.mem_map_of_mem Prod.fst hp2))
      simp [mapGet, hne, ih hnd.2 hp2]

/-- Decompose a list at the head of its filtering. -/
theorem filter_decomp_of_filter_eq_cons {α : Type} {p : α → Bool} :
    ∀ {l : List α} {y : α} {ys : List α}, l.filter p = y :: ys →
      ∃ l1 l2, l = l1 ++ y :: l2 ∧ (∀ x ∈ l1, p x = false) ∧ l2.filter p = ys := by
  intro l
  induction l with
  | nil => intro y ys h; simp at h
  | cons x xs ih =>
    intro y ys h
    by_cases hx : p x
    · rw [List.filter_cons, if_pos hx] at h
      obtain ⟨rfl, rfl⟩ : x = y ∧ xs.filter p = ys := by
        constructor <;> [skip; skip] <;> injection h
      exact ⟨[], xs, by simp, by simp, rfl⟩
    · rw [List.filter_cons, if_neg hx] at h
      obtain ⟨l1, l2, rfl, h1, h2⟩ := ih h
      refine ⟨x :: l1, l2, by simp, ?_, h2⟩
      intro z hz
      rcases List.mem_cons.mp hz with hz2 | hz2
      · simpa [hz2] using hx
      · exact h1 z hz2

/-- `findIndex` and `splice` on a list whose first `p`-match is `y`. -/
theorem findIdx_eraseIdx_decomp {α : Type} {p : α → Bool} (l1 l2 : List α) (y : α)
    (h1 : ∀ x ∈ l1, p x = false) (hy : p y = true) :
    (l1 ++ y :: l2).findIdx? p = some l1.length ∧
      (l1 ++ y :: l2).eraseIdx l1.length = l1 ++ l2 := by
  induction l1 with
  | nil => simp [List.findIdx?_cons, hy]
  | cons a l1 ih =>
    have ha : p a = false := h1 a (by simp)
    have ih2 := ih (fun x hx => h1 x (List.mem_cons_of_mem _ hx))
    constructor
    · simp [List.cons_append, List.findIdx?_cons, ha, List.findIdx?_succ, ih2.1]
    · simpa [List.eraseIdx_cons_succ] using ih2.2

def optOfList (l : List Symbol) : Option (List Symbol) :=
  if l.isEmpty then none else some l

theorem removeFold_spec (f : String) :
    ∀ (L : List Symbol) (idx : List (String × List Symbol)),
      (idx.map Prod.fst).Nodup →
      (∀ p ∈ idx, p.2 ≠ []) →
      (∀ s ∈ L, s.file = f) →
      (∀ n, ((mapGet idx n).getD []).filter (fun s => s.file == f)
          = L.filter (fun s => s.name == n)) →
      ((L.foldl removeIndexEntry idx).map Prod.fst).Nodup ∧
      (∀ p ∈ L.foldl removeIndexEntry idx, p.2 ≠ []) ∧
      (∀ n, mapGet (L.foldl removeIndexEntry idx) n =
        optOfList (((mapGet idx n).getD []).filter (fun s => !(s.file == f)))) := by
  intro L
  induction L with
  | nil =>
    intro idx h1 h2 h3 h4
    refine ⟨h1, h2, ?_⟩
    intro n
    have hb : ((mapGet idx n).getD []).filter (fun s => s.file == f) = [] := by
      simpa using h4 n
    have hall : ∀ a ∈ (mapGet idx n).getD [], (!(a.file == f)) = true := by
      intro a ha
      by_cases hf : (a.file == f) = true
      · have hmem : a ∈ ((mapGet idx n).getD []).filter (fun s => s.file == f) :=
          List.mem_filter.mpr ⟨ha, hf⟩
        rw [hb] at hmem
        simp at hmem
      · simp [hf]
    have hself : ((mapGet idx n).getD []).filter (fun s => !(s.file == f))
        = (mapGet idx n).getD [] := List.filter_eq_self.mpr hall
    rw [List.foldl_nil, hself]
    cases h : mapGet idx n with
    | none => simp [optOfList]
    | some b0 =>
      have hne : b0 ≠ [] := h2 (n, b0) (mem_of_mapGet_eq_some _ _ _ h)
      simp [optOfList, List.isEmpty_iff, hne]
  | cons s L2 ih =>
    intro idx h1 h2 h3 h4
    have hsf : s.file = f := h3 s (by simp)
    have hfc : ((mapGet idx s.name).getD []).filter (fun x => x.file == f)
        = s :: L2.filter (fun x => x.name == s.name) := by
      rw [h4 s.name]
      simp [List.filter_cons]
    obtain ⟨l1, l2, hdec, hl1, hl2⟩ := filter_decomp_of_filter_eq_cons hfc
    have hsome : mapGet idx s.name = some ((mapGet idx s.name).getD []) := by
      cases h : mapGet idx s.name with
      | none => rw [h] at hfc; simp at hfc
      | some b0 => simp
    have hps : (s.file == s.file && s.line == s.line) = true := by simp
    have hpl1 : ∀ x ∈ l1, (x.file == s.file && x.line == s.line) = false := by
      intro x hx
      have hx1 := hl1 x hx
      simp only at hx1
      rw [hsf]
      simp [hx1]
    have hfind := findIdx_eraseIdx_decomp l1 l2 s hpl1 hps
    have hidx2 : removeIndexEntry idx s =
        (if (l1 ++ l2).isEmpty then mapDelete idx s.name
         else mapSet idx s.name (l1 ++ l2)) := by
      rw [removeIndexEntry, hsome, hdec]
      simp only [hfind.1, hfind.2]
    have hget2 : ∀ n, mapGet (removeIndexEntry idx s) n =
        if s.name = n then optOfList (l1 ++ l2) else mapGet idx n := by
      intro n
      rw [hidx2]
      by_cases hc : (l1 ++ l2).isEmpty
      · rw [if_pos hc, mapGet_mapDelete _ _ _ h1]
        by_cases hn : s.name = n <;> simp [hn, optOfList, hc]
      · rw [if_neg hc, mapGet_mapSet]
        by_cases hn : s.name = n <;> simp [hn, optOfList, hc]
    have hgd : (optOfList (l1 ++ l2)).getD [] = l1 ++ l2 := by
      by_cases hc : (l1 ++ l2).isEmpty
      · rw [List.isEmpty_iff] at hc
        simp [optOfList, hc]
      · simp [optOfList, hc]
    have h1' : ((removeIndexEntry idx s).map Prod.fst).Nodup := by
      rw [hidx2]
      by_cases hc : (l1 ++ l2).isEmpty
      · rw [if_pos hc]; exact mapDelete_keys_nodup _ _ h1
      · rw [if_neg hc]; exact mapSet_keys_nodup _ _ _ h1
    have h2' : ∀ p ∈ removeIndexEntry idx s, p.2 ≠ [] := by
      rw [hidx2]
      by_cases hc : (l1 ++ l2).isEmpty
      · rw [if_pos hc]
        intro p hp
        exact h2 p (mem_of_mem_mapDelete _ _ _ hp)
      · rw [if_neg hc]
        intro p hp
        rcases mem_mapSet_cases _ _ _ _ hp with h | h
        · rw [h]
          intro hnil
          simp only at hnil
          rw [hnil] at hc
          simp at hc
        · exact h2 p h
    have h3' : ∀ x ∈ L2, x.file = f := fun x hx => h3 x (List.mem_cons_of_mem _ hx)
    have hl1F : l1.filter (fun x => x.file == f) = [] := by
      rw [List.filter_eq_nil_iff]
      intro x hx
      simp [hl1 x hx]
    have h4' : ∀ n, ((mapGet (removeIndexEntry idx s) n).getD []).filter (fun x => x.file == f)
        = L2.filter (fun x => x.name == n) := by
      intro n
      rw [hget2 n]
      by_cases hn : s.name = n
      · subst hn
        rw [if_pos rfl, hgd, List.filter_append, hl1F, hl2]
        simp
      · rw [if_neg hn, h4 n]
        have : (s.name == n) = false := by simp [hn]
        simp [List.filter_cons, this]
    have hstab : ∀ n, ((mapGet (removeIndexEntry idx s) n).getD []).filter (fun x => !(x.file == f))
        = ((mapGet idx n).getD []).filter (fun x => !(x.file == f)) := by
      intro n
      rw [hget2 n]
      by_cases hn : s.name = n
      · subst hn
        rw [if_pos rfl, hgd, hdec]
        have hsF : (s.file == f) = true := by simp [hsf]
        simp [List.filter_append, List.filter_cons, hsF]
      · rw [if_neg hn]
    obtain ⟨g1, g2, g3⟩ := ih (removeIndexEntry idx s) h1' h2' h3' h4'
    refine ⟨?_, ?_, ?_⟩
    · simpa [List.foldl_cons] using g1
    · simpa [List.foldl_cons] using g2
    · intro n
      rw [List.foldl_cons, g3 n, hstab n]

theorem optOfList_getD (l : List Symbol) : (optOfList l).getD [] = l := by
  by_cases hc : l.isEmpty
  · rw [List.isEmpty_iff] at hc
    simp [optOfList, hc]
  · simp [optOfList, hc]

theorem optOfList_eq_some {l b : List Symbol} (h : optOfList l = some b) :
    b = l ∧ l ≠ [] := by
  by_cases hc : l.isEmpty
  · simp [optOfList, hc] at h
  · rw [optOfList, if_neg hc] at h
    refine ⟨(Option.some_inj.mp h).symm, ?_⟩
    intro hnil
    rw [hnil] at hc
    simp at hc

theorem removeFile_spec (db : SymbolDatabase) (hInv : DbInv db) (f : String) :
    (∀ g, mapGet (db.removeFile f).symbols g = if f = g then none else mapGet db.symbols g) ∧
    (∀ n, mapGet (db.removeFile f).symbolIndex n =
      optOfList ((db.findSymbolsByName n).filter (fun s => !(s.file == f)))) ∧
    (db.removeFile f).referenceIndex = db.referenceIndex ∧
    DbInv (db.removeFile f) := by
  cases h : mapGet db.symbols f with
  | none =>
    have hrm : db.removeFile f = db := by
      rw [SymbolDatabase.removeFile, h]
    have h4 : ∀ n, ((mapGet db.symbolIndex n).getD []).filter (fun s => s.file == f)
        = List.filter (fun s => s.name == n) [] := by
      intro n
      have := hInv.bucketFile n f
      rw [storedList, h] at this
      simpa using this
    obtain ⟨g1, g2, g3⟩ :=
      removeFold_spec f [] db.symbolIndex hInv.keysI hInv.bucketsNonempty (by simp) h4
    rw [hrm]
    refine ⟨?_, ?_, rfl, hInv⟩
    · intro g
      by_cases hg : f = g
      · subst hg
        simp [h]
      · simp [hg]
    · intro n
      simpa using g3 n
  | some L =>
    have hrm : db.removeFile f =
        { db with symbolIndex := L.foldl removeIndexEntry db.symbolIndex,
                  symbols := mapDelete db.symbols f } := by
      rw [SymbolDatabase.removeFile, h]
    have hmem : (f, L) ∈ db.symbols := mem_of_mapGet_eq_some _ _ _ h
    have h3 : ∀ s ∈ L, s.file = f := fun s hs => hInv.filesWF (f, L) hmem s hs
    have h4 : ∀ n, ((mapGet db.symbolIndex n).getD []).filter (fun s => s.file == f)
        = L.filter (fun s => s.name == n) := by
      intro n
      have := hInv.bucketFile n f
      rwa [storedList, h] at this
    obtain ⟨g1, g2, g3⟩ :=
      removeFold_spec f L db.symbolIndex hInv.keysI hInv.bucketsNonempty h3 h4
    have hsymbols : ∀ g, mapGet (db.removeFile f).symbols g =
        if f = g then none else mapGet db.symbols g := by
      intro g
      rw [hrm]
      exact mapGet_mapDelete _ _ _ hInv.keysS
    have hindex : ∀ n, mapGet (db.removeFile f).symbolIndex n =
        optOfList ((db.findSymbolsByName n).filter (fun s => !(s.file == f))) := by
      intro n
      rw [hrm]
      exact g3 n
    have hbucketval : ∀ n, (db.removeFile f).findSymbolsByName n =
        (db.findSymbolsByName n).filter (fun s => !(s.file == f)) := by
      intro n
      rw [SymbolDatabase.findSymbolsByName, hindex n, optOfList_getD]
    refine ⟨hsymbols, hindex, by rw [hrm], ?_⟩
    refine ⟨?_, ?_, ?_, ?_, ?_⟩
    · rw [hrm]
      exact mapDelete_keys_nodup _ _ hInv.keysS
    · rw [hrm]
      exact g1
    · intro p hp
      rw [hrm] at hp
      exact hInv.filesWF p (mem_of_mem_mapDelete _ _ _ hp)
    · intro n g
      rw [hbucketval n]
      by_cases hg : f = g
      · subst hg
        have hleft : ((db.findSymbolsByName n).filter (fun s => !(s.file == f))).filter
            (fun s => s.file == f) = [] := by
          rw [List.filter_filter]
          rw [List.filter_eq_nil_iff]
          intro x hx
          by_cases hxf : (x.file == f) = true <;> simp [hxf]
        have hright : storedList (db.removeFile f) f = [] := by
          rw [storedList, hsymbols f, if_pos rfl]
          rfl
        rw [hleft, hright]
        simp
      · have hleft : ((db.findSymbolsByName n).filter (fun s => !(s.file == f))).filter
            (fun s => s.file == g) = (db.findSymbolsByName n).filter (fun s => s.file == g) := by
          rw [List.filter_filter]
          apply List.filter_congr
          intro x hx
          by_cases hxg : (x.file == g) = true
          · have hxg2 : x.file = g := by simpa using hxg
            have hgf : ¬ x.file = f := by
              rw [hxg2]
              intro hc
              exact hg hc.symm
            simp [hxg, hgf]
          · simp [hxg]
        have hright : storedList (db.removeFile f) g = storedList db g := by
          rw [storedList, storedList, hsymbols g, if_neg hg]
        rw [hleft, hright]
        exact hInv.bucketFile n g
    · rw [hrm]
      exact g2

theorem insertFold_spec :
    ∀ (S : List Symbol) (idx : List (String × List Symbol)),
      (idx.map Prod.fst).Nodup →
      (∀ p ∈ idx, p.2 ≠ []) →
      ((S.foldl insertIndexEntry idx).map Prod.fst).Nodup ∧
      (∀ n, mapGet (S.foldl insertIndexEntry idx) n =
        optOfList (((mapGet idx n).getD []) ++ S.filter (fun s => s.name == n))) := by
  intro S
  induction S with
  | nil =>
    intro idx h1 h2
    refine ⟨h1, ?_⟩
    intro n
    rw [List.foldl_nil]
    cases h : mapGet idx n with
    | none => simp [optOfList]
    | some b0 =>
      have hne : b0 ≠ [] := h2 (n, b0) (mem_of_mapGet_eq_some _ _ _ h)
      simp [optOfList, List.isEmpty_iff, hne]
  | cons s S2 ih =>
    intro idx h1 h2
    have hins : insertIndexEntry idx s
        = mapSet idx s.name (((mapGet idx s.name).getD []) ++ [s]) := rfl
    have h1' : ((insertIndexEntry idx s).map Prod.fst).Nodup := by
      rw [hins]
      exact mapSet_keys_nodup _ _ _ h1
    have h2' : ∀ p ∈ insertIndexEntry idx s, p.2 ≠ [] := by
      rw [hins]
      intro p hp
      rcases mem_mapSet_cases _ _ _ _ hp with hcase | hcase
      · rw [hcase]
        simp
      · exact h2 p hcase
    have hget : ∀ n, mapGet (insertIndexEntry idx s) n =
        if s.name = n then some (((mapGet idx s.name).getD []) ++ [s]) else mapGet idx n := by
      intro n
      rw [hins, mapGet_mapSet]
    obtain ⟨g1, g2⟩ := ih (insertIndexEntry idx s) h1' h2'
    refine ⟨by simpa [List.foldl_cons] using g1, ?_⟩
    intro n
    rw [List.foldl_cons, g2 n, hget n]
    by_cases hn : s.name = n
    · subst hn
      rw [if_pos rfl]
      simp [List.filter_cons, List.append_assoc]
    · rw [if_neg hn]
      have : (s.name == n) = false := by simp [hn]
      simp [List.filter_cons, this]

theorem updateFile_spec (db : SymbolDatabase) (hInv : DbInv db) (f : String)
    (S : List Symbol) (hS : ∀ s ∈ S, s.file = f) :
    (∀ g, mapGet (db.updateFile f S).symbols g = if f = g then some S else mapGet db.symbols g) ∧
    (∀ n, mapGet (db.updateFile f S).symbolIndex n =
      optOfList ((db.findSymbolsByName n).filter (fun s => !(s.file == f))
        ++ S.filter (fun s => s.name == n))) ∧
    (db.updateFile f S).referenceIndex = db.referenceIndex ∧
    DbInv (db.updateFile f S) := by
  obtain ⟨r1, r2, r3, rInv⟩ := removeFile_spec db hInv f
  have hupd : db.updateFile f S =
      { symbols := mapSet (db.removeFile f).symbols f S,
        symbolIndex := S.foldl insertIndexEntry (db.removeFile f).symbolIndex,
        referenceIndex := (db.removeFile f).referenceIndex } := rfl
  have hbucket1 : ∀ n, (db.removeFile f).findSymbolsByName n
      = (db.findSymbolsByName n).filter (fun s => !(s.file == f)) := by
    intro n
    rw [SymbolDatabase.findSymbolsByName, r2 n, optOfList_getD]
  obtain ⟨g1, g2⟩ := insertFold_spec S (db.removeFile f).symbolIndex rInv.keysI rInv.bucketsNonempty
  have hsymbols : ∀ g, mapGet (db.updateFile f S).symbols g
      = if f = g then some S else mapGet db.symbols g := by
    intro g
    rw [hupd]
    show mapGet (mapSet (db.removeFile f).symbols f S) g = _
    rw [mapGet_mapSet]
    by_cases hg : f = g
    · simp [hg]
    · rw [if_neg hg, if_neg hg, r1 g, if_neg hg]
  have hindex : ∀ n, mapGet (db.updateFile f S).symbolIndex n =
      optOfList ((db.findSymbolsByName n).filter (fun s => !(s.file == f))
        ++ S.filter (fun s => s.name == n)) := by
    intro n
    rw [hupd]
    show mapGet (S.foldl insertIndexEntry (db.removeFile f).symbolIndex) n = _
    rw [g2 n]
    rw [show (mapGet (db.removeFile f).symbolIndex n).getD []
        = (db.removeFile f).findSymbolsByName n from rfl]
    rw [hbucket1 n]
  have hbucketval : ∀ n, (db.updateFile f S).findSymbolsByName n =
      (db.findSymbolsByName n).filter (fun s => !(s.file == f))
        ++ S.filter (fun s => s.name == n) := by
    intro n
    rw [SymbolDatabase.findSymbolsByName, hindex n, optOfList_getD]
  refine ⟨hsymbols, hindex, by rw [hupd, r3], ?_⟩
  refine ⟨?_, ?_, ?_, ?_, ?_⟩
  · rw [hupd]
    show ((mapSet (db.removeFile f).symbols f S).map Prod.fst).Nodup
    exact mapSet_keys_nodup _ _ _ rInv.keysS
  · rw [hupd]
    exact g1
  · intro p hp
    rw [hupd] at hp
    replace hp : p ∈ mapSet (db.removeFile f).symbols f S := hp
    rcases mem_mapSet_cases _ _ _ _ hp with hcase | hcase
    · rw [hcase]
      exact hS
    · exact rInv.filesWF p hcase
  · intro n g
    rw [hbucketval n, List.filter_append]
    by_cases hg : f = g
    · subst hg
      have hleft : ((db.findSymbolsByName n).filter (fun s => !(s.file == f))).filter
          (fun s => s.file == f) = [] := by
        rw [List.filter_filter, List.filter_eq_nil_iff]
        intro x hx
        by_cases hxf : (x.file == f) = true <;> simp [hxf]
      have hSright : (S.filter (fun s => s.name == n)).filter (fun s => s.file == f)
          = S.filter (fun s => s.name == n) := by
        rw [List.filter_eq_self]
        intro a ha
        have : a ∈ S := (List.mem_filter.mp ha).1
        simp [hS a this]
      have hstored : storedList (db.updateFile f S) f = S := by
        rw [storedList, hsymbols f, if_pos rfl]
        rfl
      rw [hleft, hSright, hstored]
      simp
    · have hleft : ((db.findSymbolsByName n).filter (fun s => !(s.file == f))).filter
          (fun s => s.file == g) = (db.findSymbolsByName n).filter (fun s => s.file == g) := by
        rw [List.filter_filter]
        apply List.filter_congr
        intro x hx
        by_cases hxg : (x.file == g) = true
        · have hxg2 : x.file = g := by simpa using hxg
          have hgf : ¬ x.file = f := by
            rw [hxg2]
            intro hc
            exact hg hc.symm
          simp [hxg, hgf]
        · simp [hxg]
      have hSright : (S.filter (fun s => s.name == n)).filter (fun s => s.file == g) = [] := by
        rw [List.filter_filter, List.filter_eq_nil_iff]
        intro x hx
        have hxf : x.file = f := hS x hx
        have : ¬ x.file = g := by
          rw [hxf]
          exact hg
        simp [this]
      have hstored : storedList (db.updateFile f S) g = storedList db g := by
        rw [storedList, storedList, hsymbols g, if_neg hg]
      rw [hleft, hSright, hstored]
      rw [hInv.bucketFile n g]
      simp
  · intro p hp
    rw [hupd] at hp
    replace hp : p ∈ S.foldl insertIndexEntry (db.removeFile f).symbolIndex := hp
    have hpget := mapGet_of_mem_nodup _ g1 p hp
    rw [g2 p.1] at hpget
    obtain ⟨hval, hne⟩ := optOfList_eq_some hpget
    rw [hval]
    exact hne

theorem dbInv_applyOp (db : SymbolDatabase) (hInv : DbInv db) (op : Op) (hop : OpWF op) :
    DbInv (applyOp db op) := by
  cases op with
  | update f S => exact (updateFile_spec db hInv f S hop).2.2.2
  | remove f => exact (removeFile_spec db hInv f).2.2.2

theorem dbInv_foldl (ops : List Op) :
    ∀ (db : SymbolDatabase), DbInv db → (∀ op ∈ ops, OpWF op) →
      DbInv (ops.foldl applyOp db) := by
  induction ops with
  | nil =>
    intro db hInv _
    simpa using hInv
  | cons op rest ih =>
    intro db hInv hwf
    rw [List.foldl_cons]
    exact ih (applyOp db op) (dbInv_applyOp db hInv op (hwf op (by simp)))
      (fun o ho => hwf o (List.mem_cons_of_mem _ ho))

theorem dbInv_applyOps (ops : List Op) (h : OpsWF ops) : DbInv (applyOps ops) :=
  dbInv_foldl ops SymbolDatabase.empty DbInv.empty h

/-- A list whose per-file slices agree with a key-unique table is a
permutation of the table contents filtered by name. -/
theorem perm_filter_flatten (n : String) :
    ∀ (table : List (String × List Symbol)) (b : List Symbol),
      (table.map Prod.fst).Nodup →
      (∀ f, b.filter (fun s => s.file == f)
          = ((mapGet table f).getD []).filter (fun s => s.name == n)) →
      b.Perm (((table.map Prod.snd).flatten).filter (fun s => s.name == n)) := by
  intro table
  induction table with
  | nil =>
    intro b _ hb
    have : b = [] := by
      cases hx : b with
      | nil => rfl
      | cons x xs =>
        have hmem : x ∈ b.filter (fun s => s.file == x.file) := by
          rw [hx]
          exact List.mem_filter.mpr ⟨by simp, by simp⟩
        rw [hb x.file] at hmem
        simp [mapGet] at hmem
    simp [this]
  | cons e rest ih =>
    intro b hnd hb
    simp only [List.map_cons, List.nodup_cons] at hnd
    have hsplit : b.Perm (b.filter (fun s => s.file == e.1)
        ++ b.filter (fun s => !(s.file == e.1))) :=
      (List.filter_append_perm _ b).symm
    have hfirst : b.filter (fun s => s.file == e.1) = e.2.filter (fun s => s.name == n) := by
      rw [hb e.1]
      simp [mapGet]
    have hrest : (b.filter (fun s => !(s.file == e.1))).Perm
        (((rest.map Prod.snd).flatten).filter (fun s => s.name == n)) := by
      apply ih _ hnd.2
      intro f
      by_cases hf : f = e.1
      · subst hf
        have h1 : (b.filter (fun s => !(s.file == e.1))).filter (fun s => s.file == e.1) = [] := by
          rw [List.filter_filter, List.filter_eq_nil_iff]
          intro x hx
          by_cases hxf : (x.file == e.1) = true <;> simp [hxf]
        have h2 : mapGet rest e.1 = none := by
          apply mapGet_eq_none_of_not_mem_keys
          exact hnd.1
        rw [h1, h2]
        simp
      · have h1 : (b.filter (fun s => !(s.file == e.1))).filter (fun s => s.file == f)
            = b.filter (fun s => s.file == f) := by
          rw [List.filter_filter]
          apply List.filter_congr
          intro x hx
          by_cases hxf : (x.file == f) = true
          · have hx2 : x.file = f := by simpa using hxf
            have : ¬ x.file = e.1 := by
              rw [hx2]
              exact hf
            simp [hxf, this]
          · simp [hxf]
        have h2 : mapGet (e :: rest) f = mapGet rest f := by
          have : ¬ e.1 = f := fun hc => hf hc.symm
          simp [mapGet, this]
        rw [h1, hb f, h2]
    have hflat : (((e :: rest).map Prod.snd).flatten).filter (fun s => s.name == n)
        = e.2.filter (fun s => s.name == n)
          ++ ((rest.map Prod.snd).flatten).filter (fun s => s.name == n) := by
      rw [List.map_cons, List.flatten_cons, List.filter_append]
    rw [hflat]
    exact hsplit.trans (List.Perm.append (by rw [hfirst]) hrest)

/-! ## Properties of the stable descending sort -/

theorem insertScored_perm (x : Symbol × Int) (l : List (Symbol × Int)) :
    (insertScored x l).Perm (x :: l) := by
  induction l with
  | nil => simp [insertScored]
  | cons y ys ih =>
    by_cases h : y.2 ≤ x.2
    · simp [insertScored, h]
    · rw [insertScored, if_neg h]
      exact (ih.cons y).trans (List.Perm.swap x y ys)

theorem sortScoredDesc_perm (l : List (Symbol × Int)) : (sortScoredDesc l).Perm l := by
  induction l with
  | nil => simp [sortScoredDesc]
  | cons x xs ih =>
    rw [sortScoredDesc]
    exact (insertScored_perm x (sortScoredDesc xs)).trans (ih.cons x)

theorem insertScored_pairwise (x : Symbol × Int) (l : List (Symbol × Int))
    (hl : l.Pairwise (fun a b => b.2 ≤ a.2)) :
    (insertScored x l).Pairwise (fun a b => b.2 ≤ a.2) := by
  induction l with
  | nil => simp [insertScored]
  | cons y ys ih =>
    rcases List.pairwise_cons.mp hl with ⟨hy, hys⟩
    by_cases h : y.2 ≤ x.2
    · rw [insertScored, if_pos h]
      refine List.pairwise_cons.mpr ⟨?_, hl⟩
      intro z hz
      rcases List.mem_cons.mp hz with hz2 | hz2
      · rw [hz2]; exact h
      · exact le_trans (hy z hz2) h
    · rw [insertScored, if_neg h]
      refine List.pairwise_cons.mpr ⟨?_, ih hys⟩
      intro z hz
      have hz2 : z ∈ x :: ys := (insertScored_perm x ys).mem_iff.mp hz
      rcases List.mem_cons.mp hz2 with hz3 | hz3
      · rw [hz3]
        exact le_of_lt (lt_of_not_ge h)
      · exact hy z hz3

theorem sortScoredDesc_pairwise (l : List (Symbol × Int)) :
    (sortScoredDesc l).Pairwise (fun a b => b.2 ≤ a.2) := by
  induction l with
  | nil => simp [sortScoredDesc]
  | cons x xs ih =>
    rw [sortScoredDesc]
    exact insertScored_pairwise x _ ih

theorem insertScored_filter_key (x : Symbol × Int) (l : List (Symbol × Int))
    (hl : l.Pairwise (fun a b => b.2 ≤ a.2)) (k : Int) :
    (insertScored x l).filter (fun p => p.2 == k)
      = if x.2 == k then x :: l.filter (fun p => p.2 == k)
        else l.filter (fun p => p.2 == k) := by
  induction l with
  | nil => by_cases hx : (x.2 == k) = true <;> simp [insertScored, List.filter_cons, hx]
  | cons y ys ih =>
    rcases List.pairwise_cons.mp hl with ⟨hy, hys⟩
    by_cases h : y.2 ≤ x.2
    · rw [insertScored, if_pos h]
      by_cases hx : (x.2 == k) = true <;> simp [List.filter_cons, hx]
    · rw [insertScored, if_neg h, List.filter_cons, List.filter_cons, ih hys]
      by_cases hx : (x.2 == k) = true
      · have hxk : x.2 = k := by simpa using hx
        have hyk : (y.2 == k) = false := by
          have : ¬ y.2 = k := by
            intro hc
            exact h (by rw [hc, ← hxk])
          simp [this]
        simp [hx, hyk]
      · simp [hx]

theorem sortScoredDesc_filter_key (l : List (Symbol × Int)) (k : Int) :
    (sortScoredDesc l).filter (fun p => p.2 == k) = l.filter (fun p => p.2 == k) := by
  induction l with
  | nil => simp [sortScoredDesc]
  | cons x xs ih =>
    rw [sortScoredDesc, insertScored_filter_key x _ (sortScoredDesc_pairwise xs) k,
      List.filter_cons]
    by_cases hx : (x.2 == k) = true <;> simp [hx, ih]

theorem pairs_snd_eq (score : Symbol → Int) (defs : List Symbol) :
    ∀ p ∈ defs.map (fun d => (d, score d)), p.2 = score p.1 := by
  intro p hp
  rcases List.mem_map.mp hp with ⟨d, _, rfl⟩
  rfl

theorem map_fst_filter_key (score : Symbol → Int) (k : Int) :
    ∀ (l : List (Symbol × Int)), (∀ p ∈ l, p.2 = score p.1) →
      (l.map Prod.fst).filter (fun d => score d == k)
        = (l.filter (fun p => p.2 == k)).map Prod.fst := by
  intro l
  induction l with
  | nil => simp
  | cons p ps ih =>
    intro hl
    have hp : p.2 = score p.1 := hl p (by simp)
    have hps := fun q hq => hl q (List.mem_cons_of_mem _ hq)
    rw [List.map_cons, List.filter_cons, List.filter_cons, hp]
    by_cases hk : (score p.1 == k) = true
    · simp [hk, ih hps]
    · simp [hk, ih hps]

theorem pairs_filter_map (score : Symbol → Int) (k : Int) (defs : List Symbol) :
    ((defs.map (fun d => (d, score d))).filter (fun p => p.2 == k)).map Prod.fst
      = defs.filter (fun d => score d == k) := by
  induction defs with
  | nil => simp
  | cons d ds ih =>
    rw [List.map_cons, List.filter_cons, List.filter_cons]
    by_cases hk : (score d == k) = true
    · simp [hk, ih]
    · simp [hk, ih]

theorem rankedFull_spec (db : SymbolDatabase) (sm : ScopeManager)
    (word currentFile : String) (line : Nat) :
    ((sortScoredDesc ((candidateDefs db word).map
        (fun d => (d, resolverScore sm word currentFile line d)))).map Prod.fst).Perm
      (candidateDefs db word) ∧
    ((sortScoredDesc ((candidateDefs db word).map
        (fun d => (d, resolverScore sm word currentFile line d)))).map Prod.fst).Pairwise
      (fun a b => resolverScore sm word currentFile line b
        ≤ resolverScore sm word currentFile line a) ∧
    (∀ k : Int, ((sortScoredDesc ((candidateDefs db word).map
        (fun d => (d, resolverScore sm word currentFile line d)))).map Prod.fst).filter
          (fun d => resolverScore sm word currentFile line d == k)
      = (candidateDefs db word).filter
          (fun d => resolverScore sm word currentFile line d == k)) := by
  have hperm := sortScoredDesc_perm ((candidateDefs db word).map
    (fun d => (d, resolverScore sm word currentFile line d)))
  have hsnd : ∀ p ∈ sortScoredDesc ((candidateDefs db word).map
      (fun d => (d, resolverScore sm word currentFile line d))),
      p.2 = resolverScore sm word currentFile line p.1 := by
    intro p hp
    exact pairs_snd_eq _ _ p (hperm.mem_iff.mp hp)
  refine ⟨?_, ?_, ?_⟩
  · have h2 := hperm.map Prod.fst
    rw [List.map_map] at h2
    have h3 : List.map (Prod.fst ∘ fun d => (d, resolverScore sm word currentFile line d))
        (candidateDefs db word) = candidateDefs db word := by
      induction candidateDefs db word with
      | nil => rfl
      | cons d ds ih => simpa using ih
    rw [h3] at h2
    exact h2
  · rw [List.pairwise_map]
    refine List.Pairwise.imp_of_mem ?_ (sortScoredDesc_pairwise _)
    intro a b ha hb hab
    rw [← hsnd a ha, ← hsnd b hb]
    exact hab
  · intro k
    rw [map_fst_filter_key _ k _ hsnd, sortScoredDesc_filter_key, pairs_filter_map]

theorem resolve_eq (db : SymbolDatabase) (sm : ScopeManager) (word currentFile : String)
    (line : Nat) :
    resolve db sm word currentFile line =
      if (candidateDefs db word).isEmpty then none
      else some (((sortScoredDesc ((candidateDefs db word).map
        (fun d => (d, resolverScore sm word currentFile line d)))).map Prod.fst).take 5) := by
  rw [resolve]
  by_cases h : (candidateDefs db word).isEmpty <;> simp [h, List.map_take]

theorem resolve_pairwise (db : SymbolDatabase) (sm : ScopeManager)
    (word currentFile : String) (line : Nat) (r : List Symbol)
    (h : resolve db sm word currentFile line = some r) :
    r.Pairwise (fun a b => resolverScore sm word currentFile line b
      ≤ resolverScore sm word currentFile line a) := by
  obtain ⟨h1, h2, h3⟩ := rankedFull_spec db sm word currentFile line
  rw [resolve_eq] at h
  by_cases hc : (candidateDefs db word).isEmpty
  · rw [if_pos hc] at h
    cases h
  · rw [if_neg hc] at h
    have hr : r = ((sortScoredDesc ((candidateDefs db word).map
        (fun d => (d, resolverScore sm word currentFile line d)))).map Prod.fst).take 5 :=
      (Option.some_inj.mp h).symm
    rw [hr]
    exact List.Pairwise.sublist (List.take_sublist _ _) h2

theorem iteAdd (c : Bool) (s k : Int) :
    (if c then s + k else s) = s + (if c then k else 0) := by
  cases c <;> simp

theorem iteAddPair (c p q : Bool) (s : Int) :
    (if c then s + (if p then (15:Int) else 0) + (if q then (10:Int) else 0) else s)
      = s + (if c && p then 15 else 0) + (if c && q then 10 else 0) := by
  cases c <;> cases p <;> cases q <;> simp

theorem suffixBonus_eq (scope : String) (cs : List String) :
    suffixBonus scope cs =
      if cs.any (fun c => c != "" && scope.endsWith c) then 12 else 0 := by
  induction cs with
  | nil => simp [suffixBonus]
  | cons c rest ih =>
    by_cases hc : (c != "" && scope.endsWith c) = true
    · simp [suffixBonus, hc]
    · simp [suffixBonus, hc, ih]

/-- The scorer is exactly the additive sum of the eight bonuses of the
scoring table; the only single-award rule is the suffix bonus, which
contributes 12 exactly when some non-empty candidate path is a suffix of
the candidate scope (the `break` stops after the first such path). -/
theorem scoreDefinition_additive (d : Symbol) (currentFile : String)
    (candidateScopes : List String) (word targetName : String) :
    scoreDefinition d currentFile candidateScopes word targetName =
      (if d.file == currentFile then 5 else 0)
      + (if candidateScopes.contains d.scope then 20 else 0)
      + (if candidateScopes.any (fun c => c != "" && d.scope.endsWith c) then 12 else 0)
      + (if hasScopeSep word && d.name.startsWith (qualifierOf word ++ "::") then 15 else 0)
      + (if hasScopeSep word && d.scope.endsWith (qualifierOf word) then 10 else 0)
      + (if d.name == targetName then 2 else 0)
      + (if d.name.endsWith ("::" ++ targetName) then 1 else 0)
      + (if d.isDefinition && !d.isDeclaration then 3 else 0) := by
  simp only [scoreDefinition, suffixBonus_eq, iteAdd, iteAddPair]
  ring

theorem c9_score_lt (sm : ScopeManager) (word currentFile : String) (line : Nat)
    (A B : Symbol)
    (hname : A.name = B.name)
    (hA : A.scope ∈ resolveCandidateScopes sm currentFile line)
    (hB2 : B.scope ∉ resolveCandidateScopes sm currentFile line)
    (hB3 : ∀ c ∈ resolveCandidateScopes sm currentFile line,
      c ≠ "" → ¬(B.scope.endsWith c = true))
    (hBf : B.file ≠ currentFile) :
    resolverScore sm word currentFile line B < resolverScore sm word currentFile line A := by
  rw [resolverScore, resolverScore, scoreDefinition_additive, scoreDefinition_additive,
    ← hname]
  have e1 : (if B.file == currentFile then (5:Int) else 0) = 0 := by
    simp [hBf]
  have e2 : (if (resolveCandidateScopes sm currentFile line).contains B.scope
      then (20:Int) else 0) = 0 := by
    simp [hB2]
  have e3 : (if (resolveCandidateScopes sm currentFile line).any
      (fun c => c != "" && B.scope.endsWith c) then (12:Int) else 0) = 0 := by
    have hfalse : (resolveCandidateScopes sm currentFile line).any
        (fun c => c != "" && B.scope.endsWith c) = false := by
      rw [List.any_eq_false]
      intro c hc
      by_cases hce : c = ""
      · simp [hce]
      · have := hB3 c hc hce
        simp [this]
    simp [hfalse]
  have e4 : (if (resolveCandidateScopes sm currentFile line).contains A.scope
      then (20:Int) else 0) = 20 := by
    simp [hA]
  rw [e1, e2, e3, e4]
  have b1 : (0:Int) ≤ (if A.file == currentFile then (5:Int) else 0) := by
    by_cases h : (A.file == currentFile) = true <;> simp [h]
  have b3 : (0:Int) ≤ (if (resolveCandidateScopes sm currentFile line).any
      (fun c => c != "" && A.scope.endsWith c) then (12:Int) else 0) := by
    by_cases h : ((resolveCandidateScopes sm currentFile line).any
      (fun c => c != "" && A.scope.endsWith c)) = true <;> simp [h]
  have b5A : (0:Int) ≤ (if hasScopeSep word && A.scope.endsWith (qualifierOf word)
      then (10:Int) else 0) := by
    by_cases h : (hasScopeSep word && A.scope.endsWith (qualifierOf word)) = true <;> simp [h]
  have b8A : (0:Int) ≤ (if A.isDefinition && !A.isDeclaration then (3:Int) else 0) := by
    by_cases h : (A.isDefinition && !A.isDeclaration) = true <;> simp [h]
  have b5B : (if hasScopeSep word && B.scope.endsWith (qualifierOf word)
      then (10:Int) else 0) ≤ 10 := by
    by_cases h : (hasScopeSep word && B.scope.endsWith (qualifierOf word)) = true <;> simp [h]
  have b8B : (if B.isDefinition && !B.isDeclaration then (3:Int) else 0) ≤ 3 := by
    by_cases h : (B.isDefinition && !B.isDeclaration) = true <;> simp [h]
  linarith

/-- C9: in the resolver output, an exact-current-scope candidate precedes
every same-named candidate with no exact or suffix scope match and no
file-locality bonus. -/
theorem c9_ranking_monotonic (db : SymbolDatabase) (sm : ScopeManager)
    (word currentFile : String) (line : Nat) (A B : Symbol)
    (hname : A.name = B.name)
    (hA : A.scope ∈ resolveCandidateScopes sm currentFile line)
    (hB2 : B.scope ∉ resolveCandidateScopes sm currentFile line)
    (hB3 : ∀ c ∈ resolveCandidateScopes sm currentFile line,
      c ≠ "" → ¬(B.scope.endsWith c = true))
    (hBf : B.file ≠ currentFile) :
    resolverScore sm word currentFile line B < resolverScore sm word currentFile line A ∧
    ∀ (r : List Symbol), resolve db sm word currentFile line = some r →
      ∀ (i j : Fin r.length), r.get i = A → r.get j = B → (i : Nat) < (j : Nat) := by
  have hlt := c9_score_lt sm word currentFile line A B hname hA hB2 hB3 hBf
  refine ⟨hlt, ?_⟩
  intro r hr i j hi hj
  have hpw := resolve_pairwise db sm word currentFile line r hr
  rcases lt_trichotomy (i : Nat) (j : Nat) with h | h | h
  · exact h
  · exfalso
    have : A = B := by
      rw [← hi, ← hj]
      congr 1
      exact Fin.ext h
    rw [this] at hlt
    exact lt_irrefl _ hlt
  · exfalso
    have := (List.pairwise_iff_get.mp hpw) j i (by exact h)
    rw [hi, hj] at this
    linarith

mutual

/-- The last `name → scope` assignment `updateGlobalScopes` performs for a
key while visiting one scope (children win over the scope itself). -/
def lastAssignOne : Scope → String → Option Scope
  | sc@(.mk n _ _ _ _ children), k =>
    match lastAssignList children k with
    | some r => some r
    | none => if n = k then some sc else none

/-- The last assignment over a scope list (later scopes win). -/
def lastAssignList : List Scope → String → Option Scope
  | [], _ => none
  | sc :: rest, k =>
    match lastAssignList rest k with
    | some r => some r
    | none => lastAssignOne sc k

end

mutual

theorem ugsOne_get : ∀ (sc : Scope) (m : List (String × Scope)) (k : String),
    mapGet (updateGlobalScopesOne m sc) k = (lastAssignOne sc k).or (mapGet m k)
  | .mk n t s e syms children, m, k => by
    rw [updateGlobalScopesOne, lastAssignOne]
    rw [ugsList_get children (mapSet m n (.mk n t s e syms children)) k]
    rw [mapGet_mapSet]
    cases lastAssignList children k with
    | none =>
      by_cases hn : n = k <;> simp [Option.or, hn]
    | some r => simp [Option.or]

theorem ugsList_get : ∀ (l : List Scope) (m : List (String × Scope)) (k : String),
    mapGet (updateGlobalScopesList m l) k = (lastAssignList l k).or (mapGet m k)
  | [], m, k => by
    rw [updateGlobalScopesList, lastAssignList]
    simp [Option.or]
  | sc :: rest, m, k => by
    rw [updateGlobalScopesList, lastAssignList]
    rw [ugsList_get rest (updateGlobalScopesOne m sc) k]
    rw [ugsOne_get sc m k]
    cases lastAssignList rest k with
    | none => simp [Option.or]
    | some r => simp [Option.or]

end

theorem ugsList_idem (m : List (String × Scope)) (l : List Scope) (k : String) :
    mapGet (updateGlobalScopesList (updateGlobalScopesList m l) l) k
      = mapGet (updateGlobalScopesList m l) k := by
  rw [ugsList_get, ugsList_get]
  cases lastAssignList l k with
  | none => simp [Option.or]
  | some r => simp [Option.or]

/-- One full re-analysis of a file (`analyzeFile`): update the symbol
database, rebuild the scope tree, and store it in the scope manager. -/
def reanalyze (db : SymbolDatabase) (sm : ScopeManager) (filePath : String)
    (symbols : List Symbol) : SymbolDatabase × ScopeManager :=
  let db := db.updateFile filePath symbols
  let p := sm.buildScopeTree symbols filePath
  (db, p.1.updateFile filePath p.2)

/-- The forest `buildScopeTree` computes — a pure function of the symbol
list (the manager state and the file path do not influence it). -/
def builtScopes (symbols : List Symbol) : List Scope :=
  updateScopeEndLinesList (closeAllFrames
    ((sortSymbolsByLine symbols).foldl buildScopeStep ([], [])).1
    ((sortSymbolsByLine symbols).foldl buildScopeStep ([], [])).2)

theorem buildScopeTree_snd (sm : ScopeManager) (S : List Symbol) (f : String) :
    (ScopeManager.buildScopeTree sm S f).2 = builtScopes S := rfl

theorem reanalyze_sm_fileScopes (db : SymbolDatabase) (sm : ScopeManager)
    (f : String) (S : List Symbol) :
    (reanalyze db sm f S).2.fileScopes
      = mapSet (mapSet sm.fileScopes f (builtScopes S)) f (builtScopes S) := rfl

theorem reanalyze_sm_globalScopes (db : SymbolDatabase) (sm : ScopeManager)
    (f : String) (S : List Symbol) :
    (reanalyze db sm f S).2.globalScopes
      = updateGlobalScopesList (updateGlobalScopesList sm.globalScopes (builtScopes S))
          (builtScopes S) := rfl

theorem filter_self_idem (p : Symbol → Bool) (l : List Symbol) :
    (l.filter p).filter p = l.filter p := by
  rw [List.filter_filter]
  apply List.filter_congr
  intro x _
  cases p x <;> simp

/-- C6: starting from any reachable index state, running the update of
file `f` with symbol list `S` (symbol-database update plus the
accompanying scope-tree rebuild) twice in a row leaves the Name Index,
the file table, the reference table, the file-scope table and the Scope
Registry extensionally identical to running it once. -/
theorem c6_update_idempotent (ops : List Op) (hwf : OpsWF ops) (f : String)
    (S : List Symbol) (hS : ∀ s ∈ S, s.file = f) (sm : ScopeManager) :
    ∀ db1 sm1 db2 sm2,
      (db1, sm1) = reanalyze (applyOps ops) sm f S →
      (db2, sm2) = reanalyze db1 sm1 f S →
      (∀ g, mapGet db2.symbols g = mapGet db1.symbols g) ∧
      (∀ n, mapGet db2.symbolIndex n = mapGet db1.symbolIndex n) ∧
      db2.referenceIndex = db1.referenceIndex ∧
      (∀ g, mapGet sm2.fileScopes g = mapGet sm1.fileScopes g) ∧
      (∀ k, mapGet sm2.globalScopes k = mapGet sm1.globalScopes k) := by
  intro db1 sm1 db2 sm2 h1 h2
  have hdb1 : db1 = (applyOps ops).updateFile f S := congrArg Prod.fst h1
  have hdb2 : db2 = db1.updateFile f S := congrArg Prod.fst h2
  have hInv := dbInv_applyOps ops hwf
  obtain ⟨s1sym, s1idx, s1ref, s1inv⟩ := updateFile_spec (applyOps ops) hInv f S hS
  have hInv1 : DbInv db1 := hdb1 ▸ s1inv
  obtain ⟨s2sym, s2idx, s2ref, s2inv⟩ := updateFile_spec db1 hInv1 f S hS
  have hbucket1 : ∀ n, db1.findSymbolsByName n
      = ((applyOps ops).findSymbolsByName n).filter (fun s => !(s.file == f))
        ++ S.filter (fun s => s.name == n) := by
    intro n
    rw [SymbolDatabase.findSymbolsByName, hdb1, s1idx n, optOfList_getD]
  refine ⟨?_, ?_, ?_, ?_, ?_⟩
  · intro g
    rw [hdb2, s2sym g]
    by_cases hg : f = g
    · subst hg
      rw [if_pos rfl, hdb1, s1sym f, if_pos rfl]
    · rw [if_neg hg]
  · intro n
    rw [hdb2, s2idx n, hbucket1 n, List.filter_append]
    have hX : (((applyOps ops).findSymbolsByName n).filter (fun s => !(s.file == f))).filter
        (fun s => !(s.file == f)) = ((applyOps ops).findSymbolsByName n).filter
        (fun s => !(s.file == f)) := filter_self_idem _ _
    have hSf : (S.filter (fun s => s.name == n)).filter (fun s => !(s.file == f)) = [] := by
      rw [List.filter_filter, List.filter_eq_nil_iff]
      intro x hx
      have := hS x hx
      simp [this]
    rw [hX, hSf, List.append_nil, hdb1, s1idx n]
  · rw [hdb2, s2ref]
  · intro g
    have hsm1 : sm1 = (reanalyze (applyOps ops) sm f S).2 := congrArg Prod.snd h1
    have hsm2 : sm2 = (reanalyze db1 sm1 f S).2 := congrArg Prod.snd h2
    rw [hsm2, hsm1, reanalyze_sm_fileScopes, reanalyze_sm_fileScopes]
    by_cases hg : f = g <;> simp [mapGet_mapSet, hg]
  · intro k
    have hsm1 : sm1 = (reanalyze (applyOps ops) sm f S).2 := congrArg Prod.snd h1
    have hsm2 : sm2 = (reanalyze db1 sm1 f S).2 := congrArg Prod.snd h2
    rw [hsm2, hsm1, reanalyze_sm_globalScopes, reanalyze_sm_globalScopes]
    simp only [ugsList_get]
    cases lastAssignList (builtScopes S) k with
    | none => simp [Option.or]
    | some r => simp [Option.or]

/-! ## The raw-record model for malformed input (records without a name)

`Symbol.name` is a mandatory string in the TypeScript interface, but the
spec discusses parser output with the `name` field missing.  Such a batch
is representable by records whose `name` is an `Option String`; the
JavaScript `Map` accepts `undefined` as a key, so the index operations of
`SymbolDatabase` act on these records verbatim, with `undefined` (`none`)
as one more possible key. -/

/-- A possibly malformed symbol record: `name` may be missing. -/
structure RawSymbol where
  name : Option String
  kind : String
  file : String
  line : Nat
  column : Nat
  scope : String
  isDefinition : Bool
  isDeclaration : Bool
deriving DecidableEq, Repr

/-- `SymbolDatabase` state over raw records; the name index is keyed by the
(possibly missing) name. -/
structure RawSymbolDatabase where
  symbols : List (String × List RawSymbol) := []
  symbolIndex : List (Option String × List RawSymbol) := []
deriving DecidableEq, Repr

/-- The empty raw database. -/
def RawSymbolDatabase.empty : RawSymbolDatabase := {}

/-- The removal step of `removeFile` on raw records (identical to
`removeIndexEntry`, with the optional name as the bucket key). -/
def rawRemoveIndexEntry (idx : List (Option String × List RawSymbol)) (symbol : RawSymbol) :
    List (Option String × List RawSymbol) :=
  match mapGet idx symbol.name with
  | none => idx
  | some symbolsWithName =>
    match symbolsWithName.findIdx?
        (fun s => s.file == symbol.file && s.line == symbol.line) with
    | none => idx
    | some i =>
      let spliced := symbolsWithName.eraseIdx i
      if spliced.isEmpty then mapDelete idx symbol.name
      else mapSet idx symbol.name spliced

/-- `removeFile` on raw records. -/
def RawSymbolDatabase.removeFile (db : RawSymbolDatabase) (filePath : String) :
    RawSymbolDatabase :=
  match mapGet db.symbols filePath with
  | none => db
  | some oldSymbols =>
    let idx := oldSymbols.foldl rawRemoveIndexEntry db.symbolIndex
    { db with symbolIndex := idx, symbols := mapDelete db.symbols filePath }

/-- The insertion step of `updateFile` on raw records: the record is pushed
into the bucket of its `name` field — also when that field is missing, in
which case the bucket key is the missing value itself. -/
def rawInsertIndexEntry (idx : List (Option String × List RawSymbol)) (symbol : RawSymbol) :
    List (Option String × List RawSymbol) :=
  mapSet idx symbol.name ((mapGet idx symbol.name).getD [] ++ [symbol])

/-- `updateFile` on raw records.  It is a total function: no branch can
fail, so no error is ever raised, malformed records included. -/
def RawSymbolDatabase.updateFile (db : RawSymbolDatabase) (filePath : String)
    (symbols : List RawSymbol) : RawSymbolDatabase :=
  let db := db.removeFile filePath
  let db := { db with symbols := mapSet db.symbols filePath symbols }
  { db with symbolIndex := symbols.foldl rawInsertIndexEntry db.symbolIndex }

/-- `findSymbolsByName(name)` on raw records: callers pass a string, so the
lookup key is always a present name. -/
def RawSymbolDatabase.findSymbolsByName (db : RawSymbolDatabase) (name : String) :
    List RawSymbol :=
  (mapGet db.symbolIndex (some name)).getD []

theorem raw_bucket_mono (idx : List (Option String × List RawSymbol))
    (symbol x : RawSymbol) (k : Option String)
    (hx : x ∈ (mapGet idx k).getD []) :
    x ∈ (mapGet (rawInsertIndexEntry idx symbol) k).getD [] := by
  rw [rawInsertIndexEntry, mapGet_mapSet]
  by_cases hk : symbol.name = k
  · rw [if_pos hk, Option.getD_some]
    rw [← hk] at hx
    exact List.mem_append_left _ hx
  · rwa [if_neg hk]

theorem raw_fold_mono (S : List RawSymbol) :
    ∀ (idx : List (Option String × List RawSymbol)) (x : RawSymbol) (k : Option String),
      x ∈ (mapGet idx k).getD [] →
      x ∈ (mapGet (S.foldl rawInsertIndexEntry idx) k).getD [] := by
  induction S with
  | nil => intro idx x k hx; simpa using hx
  | cons s S2 ih =>
    intro idx x k hx
    rw [List.foldl_cons]
    exact ih _ x k (raw_bucket_mono idx s x k hx)

theorem raw_fold_mem (S : List RawSymbol) :
    ∀ (idx : List (Option String × List RawSymbol)) (s : RawSymbol), s ∈ S →
      s ∈ (mapGet (S.foldl rawInsertIndexEntry idx) s.name).getD [] := by
  induction S with
  | nil => intro idx s hs; simp at hs
  | cons t S2 ih =>
    intro idx s hs
    rw [List.foldl_cons]
    rcases List.mem_cons.mp hs with hs2 | hs2
    · subst hs2
      apply raw_fold_mono
      rw [rawInsertIndexEntry, mapGet_mapSet, if_pos rfl, Option.getD_some]
      exact List.mem_append_right _ (by simp)
    · exact ih _ s hs2

/-! ## The claims -/

/-- C1: the resolver candidate scorer computes exactly the additive score
of the table: +5 for the current file, +20 for an exact candidate-scope
match, +12 (at most once — the first matching entry only) for a non-empty
candidate path that is a suffix of the scope, +15 for a qualified
identifier whose qualifier prefixes the candidate name, +10 for a
qualified identifier whose qualifier is a suffix of the candidate scope,
+2 for an exact unqualified name match, +1 for a name ending in
`::targetName`, +3 for a definition that is not a declaration; no other
contributions and no early exit. -/
theorem c1_scoring_table (d : Symbol) (currentFile : String)
    (candidateScopes : List String) (word targetName : String) :
    scoreDefinition d currentFile candidateScopes word targetName =
      (if d.file == currentFile then 5 else 0)
      + (if candidateScopes.contains d.scope then 20 else 0)
      + (if candidateScopes.any (fun c => c != "" && d.scope.endsWith c) then 12 else 0)
      + (if hasScopeSep word && d.name.startsWith (qualifierOf word ++ "::") then 15 else 0)
      + (if hasScopeSep word && d.scope.endsWith (qualifierOf word) then 10 else 0)
      + (if d.name == targetName then 2 else 0)
      + (if d.name.endsWith ("::" ++ targetName) then 1 else 0)
      + (if d.isDefinition && !d.isDeclaration then 3 else 0) :=
  scoreDefinition_additive d currentFile candidateScopes word targetName

/-- C2: the resolver's candidate set is the definitions under the
unqualified tail name together with (for a qualified identifier) the
definitions under the full text, deduplicated; an empty set yields `none`
(the resolver is a total function, never an error), and otherwise the
result is the candidates stably sorted by descending score (a permutation,
descending-sorted, with every equal-score class kept in candidate order)
truncated to at most 5. -/
theorem c2_resolver_candidates_and_ranking (db : SymbolDatabase) (sm : ScopeManager)
    (word currentFile : String) (line : Nat) :
    ∃ rankedFull : List Symbol,
      rankedFull.Perm (candidateDefs db word) ∧
      rankedFull.Pairwise (fun a b => resolverScore sm word currentFile line b
        ≤ resolverScore sm word currentFile line a) ∧
      (∀ k : Int, rankedFull.filter (fun d => resolverScore sm word currentFile line d == k)
        = (candidateDefs db word).filter
            (fun d => resolverScore sm word currentFile line d == k)) ∧
      (rankedFull.take 5).length ≤ 5 ∧
      resolve db sm word currentFile line =
        (if (candidateDefs db word).isEmpty then none else some (rankedFull.take 5)) := by
  obtain ⟨h1, h2, h3⟩ := rankedFull_spec db sm word currentFile line
  refine ⟨_, h1, h2, h3, ?_, resolve_eq db sm word currentFile line⟩
  rw [List.length_take]
  exact min_le_left _ _

/-- The `namespace math` symbol of the end-to-end scenario (line 0). -/
def mathSym : Symbol :=
  { name := "math", kind := "namespace", file := "test.cpp", line := 0, column := 0,
    scope := "", isDefinition := true, isDeclaration := false }

/-- The `class Calculator` symbol of the scenario, on a strictly later
line inside the namespace. -/
def calcSym : Symbol :=
  { name := "Calculator", kind := "class", file := "test.cpp", line := 1, column := 4,
    scope := "math", isDefinition := true, isDeclaration := false }

/-- The `add` member function of the scenario, on a later line inside the
class. -/
def addSym : Symbol :=
  { name := "add", kind := "function", file := "test.cpp", line := 2, column := 8,
    scope := "math::Calculator", isDefinition := true, isDeclaration := false }

/-- C3 (the code at the claimed scenario): because the builder pops every
open scope whose provisional `endLine` (still equal to its start line)
precedes the new symbol, the three scope symbols at strictly increasing
lines become three sibling roots; `findScopeAtPosition` at the line of
`add` returns the `add` function scope, whose path is `add` — not the
`Calculator` scope with path `math::Calculator`. -/
theorem c3_scenario_mismatch :
    ((ScopeManager.empty.buildScopeTree [mathSym, calcSym, addSym] "test.cpp").1.findScopeAtPosition
      "test.cpp" 2).map Scope.name = some "add" ∧
    ((ScopeManager.empty.buildScopeTree [mathSym, calcSym, addSym] "test.cpp").1.findScopeAtPositionH
      "test.cpp" 2).map (fun r => getScopePath r.1 r.2) = some "add" ∧
    ((ScopeManager.empty.buildScopeTree [mathSym, calcSym, addSym] "test.cpp").2).map Scope.name
      = ["math", "Calculator", "add"] := by
  refine ⟨?_, ?_, ?_⟩ <;>
    simp [ScopeManager.buildScopeTree, ScopeManager.empty, ScopeManager.findScopeAtPosition,
      ScopeManager.findScopeAtPositionH, sortSymbolsByLine, insertByLine, buildScopeStep,
      popFrames, closeAllFrames, closeFrame, createScope, isScopeSymbol,
      updateScopeEndLinesList, updateScopeEndLinesOne, mapSet, mapGet, findScopeAtLine,
      findScopeAtLineH, getScopePath, getScopeHierarchyNames, Scope.name, Scope.startLine,
      Scope.endLine, mathSym, calcSym, addSym, String.intercalate, String.intercalate.go]

/-- C4: for every well-formed operation sequence from the empty index, each
name bucket is — as a multiset — exactly the projection of the
authoritative file table onto that name; in particular every bucket entry
is a stored record and every stored record appears in its name's bucket. -/
theorem c4_name_index_is_projection (ops : List Op) (hwf : OpsWF ops) (n : String) :
    ((applyOps ops).findSymbolsByName n).Perm
      (((applyOps ops).allStoredSymbols).filter (fun s => s.name == n)) ∧
    (∀ s ∈ (applyOps ops).findSymbolsByName n, s ∈ (applyOps ops).allStoredSymbols) ∧
    (∀ s ∈ (applyOps ops).allStoredSymbols, s.name = n →
      s ∈ (applyOps ops).findSymbolsByName n) := by
  have hInv := dbInv_applyOps ops hwf
  have hperm := perm_filter_flatten n (applyOps ops).symbols
    ((applyOps ops).findSymbolsByName n) hInv.keysS (fun f => hInv.bucketFile n f)
  refine ⟨hperm, ?_, ?_⟩
  · intro s hs
    exact (List.mem_filter.mp (hperm.mem_iff.mp hs)).1
  · intro s hs hname
    exact hperm.mem_iff.mpr (List.mem_filter.mpr ⟨hs, by simp [hname]⟩)

/-- A one-symbol fixture used by the concrete witnesses. -/
def wSym : Symbol :=
  { name := "x", kind := "function", file := "a.cpp", line := 0, column := 0,
    scope := "", isDefinition := true, isDeclaration := false }

/-- Witness for C4 at a concrete operation sequence. -/
theorem c4_name_index_is_projection_witness :
    ((applyOps [Op.update "a.cpp" [wSym]]).findSymbolsByName "x").Perm
      (((applyOps [Op.update "a.cpp" [wSym]]).allStoredSymbols).filter
        (fun s => s.name == "x")) :=
  (c4_name_index_is_projection [Op.update "a.cpp" [wSym]] (by decide) "x").1

/-- The namespace symbol the stale-registry scenario indexes first. -/
def oldNs : Symbol :=
  { name := "Old", kind := "namespace", file := "f.cpp", line := 0, column := 0,
    scope := "", isDefinition := true, isDeclaration := false }

/-- The namespace symbol replacing `Old` on re-analysis. -/
def newNs : Symbol :=
  { name := "New", kind := "namespace", file := "f.cpp", line := 0, column := 0,
    scope := "", isDefinition := true, isDeclaration := false }

/-- The scope manager after analyzing `f.cpp` with `Old` and re-analyzing
it with `New` (the `analyzeFile` path: `buildScopeTree` then
`ScopeManager.updateFile`, no unindexing in between). -/
def c5Manager : ScopeManager :=
  let p1 := ScopeManager.empty.buildScopeTree [oldNs] "f.cpp"
  let smA := p1.1.updateFile "f.cpp" p1.2
  let p2 := smA.buildScopeTree [newNs] "f.cpp"
  p2.1.updateFile "f.cpp" p2.2

/-- C5 (the code at the claimed lifecycle): after re-analyzing `f.cpp`
with a symbol list that no longer contains the scope name `Old`, the
authoritative file table holds only the new tree, yet the by-name Scope
Registry still returns the old `Old` scope — re-analysis never removes
the old tree's names from the registry. -/
theorem c5_stale_scope_registry :
    (c5Manager.findScopeByName "Old").map Scope.name = some "Old" ∧
    scopeListContainsName ((mapGet c5Manager.fileScopes "f.cpp").getD []) "Old" = false := by
  refine ⟨?_, ?_⟩ <;>
    simp [c5Manager, ScopeManager.buildScopeTree, ScopeManager.empty, ScopeManager.updateFile,
      ScopeManager.findScopeByName, sortSymbolsByLine, insertByLine, buildScopeStep,
      popFrames, closeAllFrames, closeFrame, createScope, isScopeSymbol,
      updateScopeEndLinesList, updateScopeEndLinesOne, mapSet, mapGet,
      updateGlobalScopesList, updateGlobalScopesOne, scopeListContainsName,
      scopeContainsName, Scope.name, oldNs, newNs]

/-- Witness for C6 at a concrete state, file and symbol list. -/
theorem c6_update_idempotent_witness :
    mapGet (reanalyze (reanalyze (applyOps []) ScopeManager.empty "a.cpp" [wSym]).1
        (reanalyze (applyOps []) ScopeManager.empty "a.cpp" [wSym]).2 "a.cpp" [wSym]).1.symbols
      "a.cpp"
    = mapGet (reanalyze (applyOps []) ScopeManager.empty "a.cpp" [wSym]).1.symbols "a.cpp" :=
  (c6_update_idempotent [] (by decide) "a.cpp" [wSym] (by decide) ScopeManager.empty
    (reanalyze (applyOps []) ScopeManager.empty "a.cpp" [wSym]).1
    (reanalyze (applyOps []) ScopeManager.empty "a.cpp" [wSym]).2
    (reanalyze (reanalyze (applyOps []) ScopeManager.empty "a.cpp" [wSym]).1
      (reanalyze (applyOps []) ScopeManager.empty "a.cpp" [wSym]).2 "a.cpp" [wSym]).1
    (reanalyze (reanalyze (applyOps []) ScopeManager.empty "a.cpp" [wSym]).1
      (reanalyze (applyOps []) ScopeManager.empty "a.cpp" [wSym]).2 "a.cpp" [wSym]).2
    rfl rfl).1 "a.cpp"

/-- C7: after `removeFile(f)` on a reachable index, a name whose records
all lived in `f` resolves to the empty list, `findScopeAtPosition` on `f`
returns nothing for every line (for any scope-manager state with unique
file keys), and no empty bucket is left behind. -/
theorem c7_remove_is_total (ops : List Op) (hwf : OpsWF ops) (f : String) :
    (∀ n, (∀ s ∈ (applyOps ops).findSymbolsByName n, s.file = f) →
        ((applyOps ops).removeFile f).findSymbolsByName n = []) ∧
    (∀ (sm : ScopeManager) (line : Nat), (sm.fileScopes.map Prod.fst).Nodup →
        (sm.removeFile f).findScopeAtPosition f line = none) ∧
    (∀ p ∈ ((applyOps ops).removeFile f).symbolIndex, p.2 ≠ []) := by
  have hInv := dbInv_applyOps ops hwf
  obtain ⟨r1, r2, r3, rInv⟩ := removeFile_spec (applyOps ops) hInv f
  refine ⟨?_, ?_, rInv.bucketsNonempty⟩
  · intro n hn
    rw [SymbolDatabase.findSymbolsByName, r2 n]
    have hnil : ((applyOps ops).findSymbolsByName n).filter (fun s => !(s.file == f)) = [] := by
      rw [List.filter_eq_nil_iff]
      intro x hx
      simp [hn x hx]
    rw [hnil]
    rfl
  · intro sm line hnd
    rw [ScopeManager.removeFile]
    cases h : mapGet sm.fileScopes f with
    | none => simp [ScopeManager.findScopeAtPosition, h]
    | some scopes =>
      have : mapGet (mapDelete sm.fileScopes f) f = none := by
        rw [mapGet_mapDelete _ _ _ hnd, if_pos rfl]
      simp [ScopeManager.findScopeAtPosition, this]

/-- Witness for C7 at a concrete sequence, name and manager. -/
theorem c7_remove_is_total_witness :
    ((applyOps [Op.update "a.cpp" [wSym]]).removeFile "a.cpp").findSymbolsByName "x" = [] ∧
    (ScopeManager.empty.removeFile "a.cpp").findScopeAtPosition "a.cpp" 5 = none := by
  have h := c7_remove_is_total [Op.update "a.cpp" [wSym]] (by decide) "a.cpp"
  exact ⟨h.1 "x" (by decide), h.2.1 ScopeManager.empty 5 (by decide)⟩

/-- A record missing its required `name` field. -/
def r0c8 : RawSymbol :=
  { name := none, kind := "variable", file := "f.cpp", line := 0, column := 0,
    scope := "", isDefinition := true, isDeclaration := false }

/-- A well-formed record in the same batch. -/
def r1c8 : RawSymbol :=
  { name := some "good", kind := "function", file := "f.cpp", line := 1, column := 0,
    scope := "", isDefinition := true, isDeclaration := false }

/-- C8 counterexample: updating a file whose batch contains a record with
no `name` does NOT skip that record — the record is inserted into the
name index, under the absent-name key (the claim says it is not inserted
into the name index). The well-formed record of the batch is indexed
normally. -/
theorem c8_malformed_inserted_counterexample :
    mapGet ((RawSymbolDatabase.empty.updateFile "f.cpp" [r0c8, r1c8]).symbolIndex) none
      = some [r0c8] ∧
    (RawSymbolDatabase.empty.updateFile "f.cpp" [r0c8, r1c8]).findSymbolsByName "good"
      = [r1c8] := by
  decide

/-- C8 (amended): for an update whose input symbol list contains a record
missing its required `name` field, indexing does not skip that record: it
is inserted into the name index under its absent name key; the remaining
records of the batch are indexed normally (every record of the batch lands
in the bucket of its own, possibly absent, name), and no error is raised —
the update is a total function with no failing branch. -/
theorem c8_malformed_record_indexed (db : RawSymbolDatabase) (f : String)
    (S : List RawSymbol) (r : RawSymbol) (hr : r ∈ S) (hname : r.name = none) :
    r ∈ (mapGet (db.updateFile f S).symbolIndex none).getD [] ∧
    (∀ s ∈ S, s ∈ (mapGet (db.updateFile f S).symbolIndex s.name).getD []) := by
  constructor
  · have hmem := raw_fold_mem S ((db.removeFile f).symbolIndex) r hr
    rwa [hname] at hmem
  · intro s hs
    exact raw_fold_mem S _ s hs

/-- Witness for the amended C8 at a concrete batch: the nameless record is
found in the absent-name bucket after the update. -/
theorem c8_malformed_record_indexed_witness :
    r0c8 ∈ (mapGet ((RawSymbolDatabase.empty.updateFile "f.cpp" [r0c8, r1c8]).symbolIndex)
      none).getD [] :=
  (c8_malformed_record_indexed RawSymbolDatabase.empty "f.cpp" [r0c8, r1c8] r0c8
    (by simp) rfl).1

/-- The same-named free function sitting in the exact current scope. -/
def fooA : Symbol :=
  { name := "foo", kind := "function", file := "a.cpp", line := 3, column := 0,
    scope := "", isDefinition := true, isDeclaration := false }

/-- The same-named candidate in an unrelated scope of another file. -/
def fooB : Symbol :=
  { name := "foo", kind := "function", file := "b.cpp", line := 7, column := 0,
    scope := "zz", isDefinition := true, isDeclaration := false }

/-- The two-file database of the ranking witness. -/
def dbW : SymbolDatabase :=
  (SymbolDatabase.empty.updateFile "a.cpp" [fooA]).updateFile "b.cpp" [fooB]

/-- Witness for C9 at a concrete database: the exact-scope candidate
strictly outscores the unrelated one. -/
theorem c9_ranking_monotonic_witness :
    resolverScore ScopeManager.empty "foo" "a.cpp" 0 fooB
      < resolverScore ScopeManager.empty "foo" "a.cpp" 0 fooA :=
  (c9_ranking_monotonic dbW ScopeManager.empty "foo" "a.cpp" 0 fooA fooB rfl
    (by decide) (by decide) (by decide) (by decide)).1

/-- `buildScopeTree` with the caller's `symbols` array threaded through
explicitly.  The source reads
`const sortedSymbols = [...symbols].sort((a, b) => a.line - b.line)`: the
spread `[...symbols]` allocates a fresh array and the in-place `sort`
mutates that copy; every other array mutation in the function targets
arrays the function itself created (`scopes`, `scopeStack`, each scope's
`symbols` and `children`), so the caller's array is never written.  The
third component is the content of the caller's array when the call
returns. -/
def buildScopeTreeTracked (sm : ScopeManager) (symbols : List Symbol)
    (filePath : String) : ScopeManager × List Scope × List Symbol :=
  let callerArray := symbols
  let copyArray := callerArray
  let sortedSymbols := sortSymbolsByLine copyArray
  let p := sortedSymbols.foldl buildScopeStep ([], [])
  let scopes := updateScopeEndLinesList (closeAllFrames p.1 p.2)
  let sm := { sm with fileScopes := mapSet sm.fileScopes filePath scopes }
  let sm := { sm with globalScopes := updateGlobalScopesList sm.globalScopes scopes }
  (sm, scopes, callerArray)

/-- C10: `buildScopeTree` never mutates its input symbol list — after the
call the caller's array holds the same elements in the same order (the
line-ascending sort is performed on a copy), and the tracked run computes
the same manager state and forest as `buildScopeTree` itself. -/
theorem c10_build_scope_tree_no_mutation (sm : ScopeManager) (symbols : List Symbol)
    (filePath : String) :
    (buildScopeTreeTracked sm symbols filePath).2.2 = symbols ∧
    (buildScopeTreeTracked sm symbols filePath).1
      = (sm.buildScopeTree symbols filePath).1 ∧
    (buildScopeTreeTracked sm symbols filePath).2.1
      = (sm.buildScopeTree symbols filePath).2 :=
  ⟨rfl, rfl, rfl⟩

end DC
